import Mathlib

/-!
Verification of the topology semantic engine: a shallow embedding of the
condition evaluator, enablement engine, dependency resolver (Kahn topological
sort), topology validator (port/name conflicts, DFS cycle detection) and the
state tracker's snapshot diff, together with theorems settling the frozen
claims about them.

Python dictionaries are embedded as association lists in insertion order;
Python sets are embedded as duplicate-free lists whose order models the
(implementation-defined) iteration order of the set.  JSON values are embedded
as the inductive `Value`, and Python `==` on them as `pythonEq` (note that
Python equates `True` with `1` and `False` with `0`).  Fallible code paths
(KeyError, ValueError) are embedded as `Option`.
-/

namespace Schema

/-- JSON-like runtime values as Python sees them (`None`, `bool`, `int`,
`str`, `list`, `dict`).  Objects are association lists in insertion order;
genuine JSON objects have duplicate-free keys (`valueWF`). -/
inductive Value where
  | vnull : Value
  | vbool (b : Bool) : Value
  | vint (n : Int) : Value
  | vstr (s : String) : Value
  | varr (xs : List Value) : Value
  | vobj (kvs : List (String × Value)) : Value
deriving Repr

/-- Association-list lookup, the embedding of Python `d[k]` / `d.get(k)`
(first matching key wins; real dictionaries have no duplicate keys). -/
def alookup {κ β : Type} [DecidableEq κ] (k : κ) : List (κ × β) → Option β
  | [] => none
  | (k', v) :: rest => if k' = k then some v else alookup k rest

mutual

/-- Python `==` on JSON-like values: `None == None`, numeric equality between
`bool` and `int` (`True == 1`, `False == 0`), structural equality on lists,
and key-wise equality on dictionaries (stated one-sidedly plus a length check,
which agrees with Python on duplicate-free objects). -/
def pythonEq : Value → Value → Bool
  | .vnull, .vnull => true
  | .vbool a, .vbool b => a == b
  | .vbool a, .vint n => (if a then (1 : Int) else 0) == n
  | .vint n, .vbool a => n == (if a then (1 : Int) else 0)
  | .vint a, .vint b => a == b
  | .vstr a, .vstr b => a == b
  | .varr a, .varr b => pyEqList a b
  | .vobj a, .vobj b => (a.length == b.length) && pyEqObj a b
  | _, _ => false

/-- Pointwise Python `==` on lists (order-sensitive, as in Python). -/
def pyEqList : List Value → List Value → Bool
  | [], [] => true
  | x :: xs, y :: ys => pythonEq x y && pyEqList xs ys
  | _, _ => false

/-- One-sided dictionary comparison: every entry of the first object is
matched by key in the second with a Python-equal value. -/
def pyEqObj : List (String × Value) → List (String × Value) → Bool
  | [], _ => true
  | (k, v) :: rest, other =>
    (match alookup k other with
     | some w => pythonEq v w
     | none => false) && pyEqObj rest other

end

mutual

/-- Well-formedness of an embedded JSON value: object keys are duplicate-free
at every nesting level (always true of values produced by a JSON parser). -/
def valueWF : Value → Bool
  | .vnull => true
  | .vbool _ => true
  | .vint _ => true
  | .vstr _ => true
  | .varr xs => valueWFList xs
  | .vobj kvs => decide ((kvs.map Prod.fst).Nodup) && valueWFObj kvs

/-- Well-formedness of a list of values. -/
def valueWFList : List Value → Bool
  | [] => true
  | x :: xs => valueWF x && valueWFList xs

/-- Well-formedness of the values of an object. -/
def valueWFObj : List (String × Value) → Bool
  | [] => true
  | (_, v) :: kvs => valueWF v && valueWFObj kvs

end

/-! ### The topology data model (as read by the Python engine) -/

/-- One configuration field definition; the evaluator and state tracker only
consult its `default` (`field_def.get('default')`); a missing default and an
explicit JSON `null` are both Python `None`, embedded as `Option.getD .vnull`
at the use sites. -/
structure FieldDef where
  default : Option Value := none
deriving Repr

/-- A service's `configuration` block: `config.get('properties', {})`. -/
structure Configuration where
  properties : List (String × FieldDef) := []
deriving Repr

/-- A service's `infrastructure` block, restricted to the attributes the
claim-relevant code paths read (`enabled`, `enabled_by`, `requires`,
`published_port`, `container_name`), with the source's `.get` defaults. -/
structure Infrastructure where
  enabled : Bool := false
  enabled_by : List String := []
  requires : List String := []
  published_port : Option Int := none
  container_name : Option String := none
deriving Repr

/-- A service: `{ infrastructure: ..., configuration: ... }`. -/
structure Service where
  infrastructure : Infrastructure
  configuration : Configuration := {}
deriving Repr

/-- The `topology.services` mapping in document (insertion) order. -/
abbrev Services := List (String × Service)

/-! ### Condition evaluator (`QuadletGenerator._evaluate_condition`) -/

/-- Python `\w` on the ASCII repertoire of the topology's identifiers. -/
def isWordChar (c : Char) : Bool :=
  c.isAlpha || c.isDigit || c = '_'

/-- Python `\s` / `str.strip()` whitespace. -/
def isPySpace (c : Char) : Bool :=
  c = ' ' || c = '\t' || c = '\n' || c = '\x0d' || c = '\x0b' || c = '\x0c'

/-- Match a literal character sequence at the head of the input, returning
the remainder on success. -/
def dropLiteral : List Char → List Char → Option (List Char)
  | [], rest => some rest
  | _ :: _, [] => none
  | t :: ts, c :: cs => if c = t then dropLiteral ts cs else none

/-- The regex `^(\w+)\.configuration\.(\w+)\s*(==|!=)\s*(.+)$` of
`_evaluate_condition`, as a character-level parser.  Returns the service
name, field name, whether the operator is `==`, and the raw right-hand side
(still unstripped, exactly as the regex group captures it up to the trailing
`\s*` backtracking, which `strip()` cancels anyway). -/
def parseCondition (cs : List Char) : Option (String × String × Bool × List Char) :=
  let sp := cs.span isWordChar
  if sp.1 = [] then none else
  match dropLiteral ".configuration.".toList sp.2 with
  | none => none
  | some r2 =>
    let fp := r2.span isWordChar
    if fp.1 = [] then none else
    match fp.2.dropWhile isPySpace with
    | '=' :: '=' :: rest => if rest = [] then none else some (sp.1.asString, fp.1.asString, true, rest)
    | '!' :: '=' :: rest => if rest = [] then none else some (sp.1.asString, fp.1.asString, false, rest)
    | _ => none

/-- The apostrophe character (Python's single quote). -/
def squote : Char := Char.ofNat 39

/-- Python `str.strip()`. -/
def pyStrip (cs : List Char) : List Char :=
  ((cs.dropWhile isPySpace).reverse.dropWhile isPySpace).reverse

/-- The literal-parsing block of `_evaluate_condition`: after stripping,
`true`/`false` become booleans, a single-quoted string is unquoted, and
anything else — including a bare integer — stays a string. -/
def parseLiteral (raw : List Char) : Value :=
  let e := pyStrip raw
  if e = "true".toList then .vbool true
  else if e = "false".toList then .vbool false
  else if e.head? = some squote ∧ e.getLast? = some squote then
    .vstr ((e.drop 1).dropLast).asString
  else .vstr e.asString

/-- `QuadletGenerator._evaluate_condition`: parse the condition, look up the
referenced service and field, and compare the field's `default` against the
parsed literal; every failure path returns `False`. -/
def evaluate_condition (services : Services) (condition : String) : Bool :=
  match parseCondition condition.toList with
  | none => false
  | some (svcName, fieldName, isEq, rawExpected) =>
    match alookup svcName services with
    | none => false
    | some svc =>
      match alookup fieldName svc.configuration.properties with
      | none => false
      | some fd =>
        let actual := fd.default.getD .vnull
        let expected := parseLiteral rawExpected
        if isEq then pythonEq actual expected else !(pythonEq actual expected)

/-! ### Enablement engine (`QuadletGenerator.get_enabled_services`) -/

/-- `get_enabled_services`: a service is enabled when its `enabled` flag is
set, or any of its `enabled_by` conditions evaluates true (logical OR with
short-circuit).  The Python function returns a set; this returns the members
in document order. -/
def get_enabled_services (services : Services) : List String :=
  services.filterMap (fun kv =>
    if kv.2.infrastructure.enabled then some kv.1
    else if kv.2.infrastructure.enabled_by.any (fun c => evaluate_condition services c) then some kv.1
    else none)

/-! ### Dependency resolver (`QuadletGenerator.topological_sort`) -/

/-- The `requires` list of a named service (empty for `.get` misses). -/
def requiresOf (services : Services) (s : String) : List String :=
  match alookup s services with
  | some svc => svc.infrastructure.requires
  | none => []

/-- Pointwise update of a total map, the embedding of `defaultdict` writes. -/
def fupd {β : Type} (f : String → β) (k : String) (v : β) : String → β :=
  fun x => if x = k then v else f x

/-- One iteration of the graph-building inner loop: for an edge
`dep → sName` with `dep` enabled, append the dependent and bump the
dependent's indegree. -/
def addEdge (enabled : List String) (sName dep : String)
    (acc : (String → List String) × (String → Int)) :
    (String → List String) × (String → Int) :=
  if dep ∈ enabled then
    (fupd acc.1 dep (acc.1 dep ++ [sName]), fupd acc.2 sName (acc.2 sName + 1))
  else acc

/-- The graph-building loops of `topological_sort`: adjacency from dependency
to dependents (`graph`) and indegrees (`in_degree`), both as `defaultdict`s. -/
def buildGraph (services : Services) (enabled : List String) :
    (String → List String) × (String → Int) :=
  enabled.foldl
    (fun acc sName =>
      (requiresOf services sName).foldl (fun acc2 dep => addEdge enabled sName dep acc2) acc)
    (fun _ => [], fun _ => 0)

/-- The dependent-processing loop of one Kahn iteration: decrement each
dependent's indegree, enqueueing it when the indegree reaches zero. -/
def relaxAll (dependents : List String) (indeg : String → Int) (queue : List String) :
    (String → Int) × List String :=
  match dependents with
  | [] => (indeg, queue)
  | d :: rest =>
    let v := indeg d - 1
    let indeg' := fupd indeg d v
    let queue' := if v = 0 then queue ++ [d] else queue
    relaxAll rest indeg' queue'

/-- The `while queue:` loop of `topological_sort` (FIFO pop from the left,
append popped node to the output, then relax its dependents).  The fuel
argument only bounds the iteration count; `topological_sort` supplies more
fuel than the loop can consume. -/
def kahnLoop (graph : String → List String) :
    Nat → List String → (String → Int) → List String → List String
  | 0, _, _, sorted => sorted
  | _ + 1, [], _, sorted => sorted
  | fuel + 1, s :: q, indeg, sorted =>
    let p := relaxAll (graph s) indeg q
    kahnLoop graph fuel p.2 p.1 (sorted ++ [s])

/-- `QuadletGenerator.topological_sort`.  The `enabled` list is the iteration
order of the Python set `enabled_services` (an implementation artifact, not
sorted).  Returns `none` when a listed service is missing (`KeyError`) or
when the emitted order is shorter than the input (`ValueError`, cycle). -/
def topological_sort (services : Services) (enabled : List String) : Option (List String) :=
  if enabled.all (fun s => (alookup s services).isSome) then
    let gi := buildGraph services enabled
    let queue := enabled.filter (fun s => gi.2 s == 0)
    let sorted := kahnLoop gi.1 (enabled.length + 1) queue gi.2 []
    if sorted.length = enabled.length then some sorted else none
  else none

/-! ### Topology validator: conflicts (`_validate_service_ports`,
`_validate_container_names`) and cycles
(`_validate_no_circular_dependencies`) -/

/-- Validator diagnostics carrying the data interpolated into the source's
error strings. -/
inductive VErr where
  | portConflict (port : Int) (services : List String)
  | nameConflict (cname : String) (services : List String)
  | circularDependency (path : List String)
deriving Repr, DecidableEq

/-- `defaultdict(list)` append: extend the entry for `k` (keeping its
position) or create it at the end. -/
def groupAdd {κ : Type} [DecidableEq κ] (m : List (κ × List String)) (k : κ) (v : String) :
    List (κ × List String) :=
  match m with
  | [] => [(k, [v])]
  | (k', vs) :: rest => if k' = k then (k', vs ++ [v]) :: rest else (k', vs) :: groupAdd rest k v

/-- Build the `defaultdict(list)` of a key/name pair stream in order. -/
def groupPairs {κ : Type} [DecidableEq κ] (pairs : List (κ × String)) : List (κ × List String) :=
  pairs.foldl (fun m kv => groupAdd m kv.1 kv.2) []

/-- The `(published_port, service_name)` pairs scanned by
`_validate_service_ports` (services whose `published_port` is not `None`,
in document order). -/
def publishedPairs (services : Services) : List (Int × String) :=
  services.filterMap (fun kv => kv.2.infrastructure.published_port.map (fun p => (p, kv.1)))

/-- `_validate_service_ports`: group services by published port, and emit one
error per port claimed by more than one service, listing all of them. -/
def validate_service_ports (services : Services) : List VErr :=
  (groupPairs (publishedPairs services)).filterMap
    (fun e => if 1 < e.2.length then some (.portConflict e.1 e.2) else none)

/-- The `(container_name, service_name)` pairs scanned by
`_validate_container_names`; Python's `if container_name:` also skips the
empty string. -/
def containerPairs (services : Services) : List (String × String) :=
  services.filterMap (fun kv =>
    match kv.2.infrastructure.container_name with
    | some c => if c = "" then none else some (c, kv.1)
    | none => none)

/-- `_validate_container_names`: one error per container name used by more
than one service, listing all of them. -/
def validate_container_names (services : Services) : List VErr :=
  (groupPairs (containerPairs services)).filterMap
    (fun e => if 1 < e.2.length then some (.nameConflict e.1 e.2) else none)

/-- The mutable state threaded through the validator's DFS: the `visited`
and `rec_stack` sets (duplicate-free by construction) and the accumulated
errors. -/
structure DfsState where
  visited : List String
  recStack : List String
  errors : List VErr
deriving Repr, DecidableEq

mutual

/-- `has_cycle(service_name, path)`: mark the node visited and on the
recursion stack, then walk its `requires`.  Note the source's slip: on the
`return True` paths (and on the missing-service path) the node is *not*
removed from `rec_stack`. -/
def hasCycleFrom (services : Services) :
    Nat → String → List String → DfsState → (Bool × DfsState)
  | 0, _, _, st => (false, st)
  | fuel + 1, sName, path, st =>
    let st1 : DfsState :=
      { st with visited := st.visited ++ [sName], recStack := st.recStack ++ [sName] }
    match alookup sName services with
    | none => (false, st1)
    | some svc =>
      let r := dfsDeps services fuel svc.infrastructure.requires sName path st1
      if r.1 then (true, r.2)
      else (false, { r.2 with recStack := r.2.recStack.erase sName })

/-- The `for dep in requires:` loop of `has_cycle`: recurse into unvisited
dependencies (propagating `True` immediately), and on a dependency found in
`rec_stack` record `path + [service_name, dep]` as the reported cycle. -/
def dfsDeps (services : Services) :
    Nat → List String → String → List String → DfsState → (Bool × DfsState)
  | _, [], _, _, st => (false, st)
  | 0, _ :: _, _, _, st => (false, st)
  | fuel + 1, dep :: rest, sName, path, st =>
    if dep ∈ st.visited then
      if dep ∈ st.recStack then
        (true, { st with errors := st.errors ++ [.circularDependency (path ++ [sName, dep])] })
      else dfsDeps services fuel rest sName path st
    else
      let r := hasCycleFrom services fuel dep (path ++ [sName]) st
      if r.1 then (true, r.2)
      else dfsDeps services fuel rest sName path r.2

end

/-- Fuel comfortably exceeding the DFS's total call count (each call either
consumes an unvisited node or one edge of one `requires` list). -/
def dfsFuel (services : Services) : Nat :=
  let e := (services.map (fun kv => kv.2.infrastructure.requires.length)).sum
  (services.length + e + 2) * (e + 2)

/-- `_validate_no_circular_dependencies`: run the DFS from every not-yet
visited service in document order and collect the reported cycle errors. -/
def validate_no_circular_dependencies (services : Services) : List VErr :=
  ((services.map Prod.fst).foldl
    (fun st sName =>
      if sName ∈ st.visited then st
      else (hasCycleFrom services (dfsFuel services) sName [] st).2)
    ⟨[], [], []⟩).errors

/-! ### State tracker (`StateTracker.compare_states`) -/

/-- A per-field snapshot record, as the JSON object the state file stores
(`state`, `value`, `required`, `type`, `sensitive`, `visibility`, ...). -/
abbrev FieldObj := List (String × Value)

/-- A per-service snapshot record; `compare_states` reads only its
`fields` mapping. -/
structure SvcSnap where
  fields : List (String × FieldObj) := []
deriving Repr

/-- A loaded state snapshot: `schema_version` and the per-service map. -/
structure Snapshot where
  schema_version : Option Value := none
  services : List (String × SvcSnap) := []
deriving Repr

/-- Python `d.get(k)` on a field record: a missing key and a stored JSON
`null` are both Python `None` (`.vnull`). -/
def pyGet (o : FieldObj) (k : String) : Value :=
  (alookup k o).getD .vnull

/-- Sorting of name lists, the embedding of Python `sorted` on strings. -/
def sortStrs (l : List String) : List String :=
  l.insertionSort (· ≤ ·)

/-- The change record for one field: the `{'old': ..., 'new': ...}` pair is
present exactly when the `value` (resp. `state`) entries differ. -/
structure FieldChange where
  value : Option (Value × Value) := none
  state : Option (Value × Value) := none
deriving Repr

/-- Python indexing `state['services'][name]` as the tracker uses it (the
name is always a key in context; `{}` is the embedding's miss default). -/
def svcOf (st : Snapshot) (n : String) : SvcSnap :=
  (alookup n st.services).getD {}

/-- Python indexing `fields[field_name]`. -/
def fieldOf (s : SvcSnap) (fn : String) : FieldObj :=
  (alookup fn s.fields).getD []

/-- The comparison body of `_compare_service_states` for one common field:
only the `value` and `state` keys are consulted. -/
def fieldChange (oldF newF : FieldObj) : FieldChange :=
  { value :=
      if pythonEq (pyGet oldF "value") (pyGet newF "value") then none
      else some (pyGet oldF "value", pyGet newF "value"),
    state :=
      if pythonEq (pyGet oldF "state") (pyGet newF "state") then none
      else some (pyGet oldF "state", pyGet newF "state") }

/-- A per-service diff record (`fields_added`, `fields_removed`,
`fields_changed`). -/
structure SvcDiff where
  fields_added : List String
  fields_removed : List String
  fields_changed : List (String × FieldChange)
deriving Repr

/-- `sorted(new_field_names - old_field_names)` of `_compare_service_states`
(its `fields_removed` is the same expression with the snapshots swapped). -/
def svcFieldsAdded (oldS newS : SvcSnap) : List String :=
  sortStrs ((newS.fields.map Prod.fst).filter
    (fun k => decide (k ∉ oldS.fields.map Prod.fst)))

/-- `sorted(old_field_names & new_field_names)`. -/
def svcFieldsCommon (oldS newS : SvcSnap) : List String :=
  sortStrs ((oldS.fields.map Prod.fst).filter
    (fun k => decide (k ∈ newS.fields.map Prod.fst)))

/-- One iteration of the `fields_changed` loop: the change record for a
common field, included when non-empty. -/
def fieldEntry (oldS newS : SvcSnap) (fn : String) : Option (String × FieldChange) :=
  let fc := fieldChange (fieldOf oldS fn) (fieldOf newS fn)
  if fc.value.isSome || fc.state.isSome then some (fn, fc) else none

/-- The `fields_changed` loop of `_compare_service_states`. -/
def svcFieldsChanged (oldS newS : SvcSnap) : List (String × FieldChange) :=
  (svcFieldsCommon oldS newS).filterMap (fieldEntry oldS newS)

/-- `StateTracker._compare_service_states`: set differences of the field
names (sorted), per-common-field change records, and `None` when nothing
changed. -/
def compare_service_states (oldS newS : SvcSnap) : Option SvcDiff :=
  if (svcFieldsAdded oldS newS).isEmpty && (svcFieldsAdded newS oldS).isEmpty
      && (svcFieldsChanged oldS newS).isEmpty
  then none
  else some ⟨svcFieldsAdded oldS newS, svcFieldsAdded newS oldS, svcFieldsChanged oldS newS⟩

/-- The diff document produced by `compare_states` (timestamp omitted: it is
wall-clock metadata, not part of the comparison). -/
structure Diff where
  old_version : Option Value
  new_version : Option Value
  services_added : List String
  services_removed : List String
  services_modified : List (String × SvcDiff)
deriving Repr

/-- The `sorted(old_services & new_services)` iteration list of
`compare_states`. -/
def commonServices (oldSt newSt : Snapshot) : List String :=
  sortStrs ((oldSt.services.map Prod.fst).filter
    (fun k => decide (k ∈ newSt.services.map Prod.fst)))

/-- `sorted(new_services - old_services)` of `compare_states` (its
`services_removed` is the same expression with the snapshots swapped). -/
def snapServicesAdded (oldSt newSt : Snapshot) : List String :=
  sortStrs ((newSt.services.map Prod.fst).filter
    (fun k => decide (k ∉ oldSt.services.map Prod.fst)))

/-- `StateTracker.compare_states`: sorted set differences of the service
names, and per-common-service records (in sorted order) for services whose
comparison is not `None`. -/
def compare_states (oldSt newSt : Snapshot) : Diff :=
  { old_version := oldSt.schema_version,
    new_version := newSt.schema_version,
    services_added := snapServicesAdded oldSt newSt,
    services_removed := snapServicesAdded newSt oldSt,
    services_modified :=
      (commonServices oldSt newSt).filterMap
        (fun n =>
          (compare_service_states (svcOf oldSt n) (svcOf newSt n)).map
            (fun d => (n, d))) }

/-! ### Derived and specification-side notions used by the claims -/

/-- The services whose `published_port` equals `p` (the claim's "services
that carry the conflicting value"). -/
def portCarriers (services : Services) (p : Int) : List String :=
  services.filterMap (fun kv =>
    if kv.2.infrastructure.published_port = some p then some kv.1 else none)

/-- The services whose `container_name` equals `c`. -/
def nameCarriers (services : Services) (c : String) : List String :=
  services.filterMap (fun kv =>
    if kv.2.infrastructure.container_name = some c then some kv.1 else none)

/-- Stated from the spec's words for comparison with the validator's output:
the distinct published-port values shared by two or more services. -/
def specSharedPortValues (services : Services) : List Int :=
  ((publishedPairs services).map Prod.fst).dedup.filter
    (fun p => 2 ≤ (portCarriers services p).length)

/-- Stated from the spec's words: the distinct container names shared by two
or more services. -/
def specSharedNameValues (services : Services) : List String :=
  ((containerPairs services).map Prod.fst).dedup.filter
    (fun c => 2 ≤ (nameCarriers services c).length)

/-- One step of the requires-graph: service `a` requires `b`. -/
def reqStep (services : Services) (a b : String) : Prop :=
  b ∈ requiresOf services a

/-- A closed walk of the requires-graph lying inside the node set `S`:
at least one step, consecutive names joined by requires edges, and the first
and last names coincide. -/
def IsClosedWalkIn (services : Services) (S : List String) (p : List String) : Prop :=
  2 ≤ p.length ∧ p.Chain' (reqStep services) ∧ p.head? = p.getLast? ∧ ∀ x ∈ p, x ∈ S

/-- Acyclicity of the requires-graph restricted to `S`. -/
def AcyclicIn (services : Services) (S : List String) : Prop :=
  ¬ ∃ p, IsClosedWalkIn services S p

instance reqStepDecidable (services : Services) : DecidableRel (reqStep services) :=
  fun a b => inferInstanceAs (Decidable (b ∈ requiresOf services a))

/-- The path carried by a cycle diagnostic (empty for other diagnostics). -/
def errPath : VErr → List String
  | .circularDependency p => p
  | _ => []

/-- Whether a diagnostic is a port conflict on the value `p`. -/
def errIsPortConflictOn (p : Int) : VErr → Bool
  | .portConflict q _ => q == p
  | _ => false

/-- Whether a diagnostic is a container-name conflict on the value `c`. -/
def errIsNameConflictOn (c : String) : VErr → Bool
  | .nameConflict d _ => d == c
  | _ => false

/-- Well-formedness of a per-service snapshot record: duplicate-free field
names and well-formed stored values. -/
def svcSnapWF (s : SvcSnap) : Bool :=
  decide ((s.fields.map Prod.fst).Nodup) && s.fields.all (fun kv => valueWFObj kv.2)

/-- Well-formedness of a snapshot, as any snapshot read from a JSON state
file satisfies it: duplicate-free service names and well-formed services. -/
def snapWF (st : Snapshot) : Bool :=
  decide ((st.services.map Prod.fst).Nodup) && st.services.all (fun kv => svcSnapWF kv.2)

/-- The `fields_added` list recorded for service `n` in a diff (empty when
the service has no modification record). -/
def fieldsAddedIn (d : Diff) (n : String) : List String :=
  match alookup n d.services_modified with
  | some r => r.fields_added
  | none => []

/-- The `fields_removed` list recorded for service `n` in a diff. -/
def fieldsRemovedIn (d : Diff) (n : String) : List String :=
  match alookup n d.services_modified with
  | some r => r.fields_removed
  | none => []

/-- The loop-invariant of the Kahn loop of `topological_sort`, relating the
queue, the indegree table and the emitted prefix. -/
structure KahnInv (services : Services) (enabled : List String)
    (q : List String) (indeg : String → Int) (sorted : List String) : Prop where
  nodup : (sorted ++ q).Nodup
  ssub : ∀ x ∈ sorted, x ∈ enabled
  qsub : ∀ x ∈ q, x ∈ enabled
  deg : ∀ s ∈ enabled,
    indeg s = ((requiresOf services s).countP (fun d => decide (d ∈ enabled ∧ d ∉ sorted)) : Int)
  qdone : ∀ s ∈ q, ∀ d ∈ requiresOf services s, d ∈ enabled → d ∈ sorted
  sordered : ∀ x ∈ sorted, ∀ d ∈ requiresOf services x, d ∈ enabled → [d, x].Sublist sorted
  zmem : ∀ x ∈ enabled, indeg x = 0 → x ∈ sorted ∨ x ∈ q

/-! ### Concrete instances used by counterexamples and witnesses -/

/-- Two services with no dependencies and no flags. -/
def twoFreeSvcs : Services :=
  [("a", { infrastructure := {} }), ("b", { infrastructure := {} })]

/-- A one-service topology whose field `f` has the given `default`. -/
def condTopo (d : Option Value) : Services :=
  [("svc", { infrastructure := {}, configuration := ⟨[("f", ⟨d⟩)]⟩ })]

/-- The cycle `b → c → b` entered through the tail `a → b`, plus the
cycle-free edge `d → a`; document order `a, b, c, d`. -/
def cycleTailSvcs : Services :=
  [("a", { infrastructure := { requires := ["b"] } }),
   ("b", { infrastructure := { requires := ["c"] } }),
   ("c", { infrastructure := { requires := ["b"] } }),
   ("d", { infrastructure := { requires := ["a"] } })]

/-- Scenario S1: `ui` requires `db`, both enabled. -/
def uiDbSvcs : Services :=
  [("ui", { infrastructure := { requires := ["db"], enabled := true } }),
   ("db", { infrastructure := { enabled := true } })]

/-- An unconditionally enabled service with a string field, and a service
conditionally enabled by it. -/
def enableWitnessSvcs : Services :=
  [("db", { infrastructure := { enabled := true },
            configuration := ⟨[("x", ⟨some (.vstr "y")⟩)]⟩ }),
   ("cond", { infrastructure := { enabled_by := ["db.configuration.x == 'y'"] } })]

/-- A field with no `default`, and a service enabled by a `!=` condition on
that field. -/
def noDefaultSvcs : Services :=
  [("svc", { infrastructure := {}, configuration := ⟨[("f", ⟨none⟩)]⟩ }),
   ("dep", { infrastructure := { enabled_by := ["svc.configuration.f != 'x'"] } })]

/-- Two duplicated published ports and one duplicated container name. -/
def conflictSvcs : Services :=
  [("s1", { infrastructure := { published_port := some 8080, container_name := some "web" } }),
   ("s2", { infrastructure := { published_port := some 8080, container_name := some "web" } }),
   ("s3", { infrastructure := { published_port := some 9090 } }),
   ("s4", { infrastructure := { published_port := some 9090 } }),
   ("s5", { infrastructure := { published_port := some 7070, container_name := some "api" } })]

/-- A snapshot with one service and one field. -/
def snapP : Snapshot :=
  { schema_version := some (.vstr "1.0"),
    services := [("svc", ⟨[("port",
      [("value", .vint 80), ("state", .vstr "default"), ("required", .vbool true)])]⟩)] }

/-- A snapshot sharing `svc` with `snapP` (different field value) and adding
a service `extra`. -/
def snapQ : Snapshot :=
  { schema_version := some (.vstr "2.0"),
    services := [("svc", ⟨[("port",
      [("value", .vint 8080), ("state", .vstr "default"), ("required", .vbool true)])]⟩),
      ("extra", ⟨[("f", [("value", .vnull), ("state", .vstr "unset")])]⟩)] }

/-- Like `snapP` but differing only in the `required` attribute of the field
(same `value` and `state`). -/
def snapPReq : Snapshot :=
  { schema_version := some (.vstr "1.1"),
    services := [("svc", ⟨[("port",
      [("value", .vint 80), ("state", .vstr "default"), ("required", .vbool false)])]⟩)] }

/-! ## Lemmas about association-list lookup -/

theorem mem_of_alookup_eq_some {κ β : Type} [DecidableEq κ] {l : List (κ × β)} {k : κ} {v : β}
    (h : alookup k l = some v) : (k, v) ∈ l := by
  induction l with
  | nil => simp [alookup] at h
  | cons kv rest ih =>
    cases kv with
    | mk k1 v1 =>
      by_cases hk : k1 = k
      · subst hk
        simp [alookup] at h
        subst h
        exact List.mem_cons_self _ _
      · simp only [alookup, if_neg hk] at h
        exact List.mem_cons_of_mem _ (ih h)

theorem alookup_eq_some_of_mem_nodup {κ β : Type} [DecidableEq κ] {l : List (κ × β)} {k : κ}
    {v : β} (hmem : (k, v) ∈ l) (hnd : (l.map Prod.fst).Nodup) : alookup k l = some v := by
  induction l with
  | nil => cases hmem
  | cons kv rest ih =>
    simp only [List.map_cons, List.nodup_cons] at hnd
    rcases List.mem_cons.mp hmem with h | h
    · rw [← h]; simp [alookup]
    · cases kv with
      | mk k1 v1 =>
        have hk : k1 ≠ k := by
          rintro rfl
          exact hnd.1 (List.mem_map.mpr ⟨(k1, v), h, rfl⟩)
        simp only [alookup, if_neg hk]
        exact ih h hnd.2

theorem alookup_isSome_iff {κ β : Type} [DecidableEq κ] {l : List (κ × β)} {k : κ} :
    (alookup k l).isSome = true ↔ k ∈ l.map Prod.fst := by
  induction l with
  | nil => simp [alookup]
  | cons kv rest ih =>
    cases kv with
    | mk k1 v1 =>
      by_cases hk : k1 = k
      · subst hk; simp [alookup]
      · simp [alookup, if_neg hk, ih, Ne.symm hk]

theorem alookup_eq_none_iff {κ β : Type} [DecidableEq κ] {l : List (κ × β)} {k : κ} :
    alookup k l = none ↔ k ∉ l.map Prod.fst := by
  rw [← @alookup_isSome_iff κ β _ l k]
  cases h : alookup k l <;> simp [h]

/-! ## Lemmas about `sortStrs` -/

theorem sortStrs_perm (l : List String) : List.Perm (sortStrs l) l :=
  List.perm_insertionSort _ l

theorem mem_sortStrs {l : List String} {a : String} : a ∈ sortStrs l ↔ a ∈ l :=
  (sortStrs_perm l).mem_iff

theorem sortStrs_nodup {l : List String} (h : l.Nodup) : (sortStrs l).Nodup :=
  ((sortStrs_perm l).nodup_iff).mpr h

theorem sortStrs_sorted (l : List String) : (sortStrs l).Sorted (· ≤ ·) :=
  List.sorted_insertionSort _ l

theorem sortStrs_congr {l₁ l₂ : List String} (h₁ : l₁.Nodup) (h₂ : l₂.Nodup)
    (h : ∀ a, a ∈ l₁ ↔ a ∈ l₂) : sortStrs l₁ = sortStrs l₂ := by
  have hp : List.Perm (sortStrs l₁) (sortStrs l₂) :=
    ((sortStrs_perm l₁).trans ((List.perm_ext_iff_of_nodup h₁ h₂).mpr h)).trans
      (sortStrs_perm l₂).symm
  exact List.eq_of_perm_of_sorted hp (sortStrs_sorted l₁) (sortStrs_sorted l₂)

theorem sortStrs_eq_nil_iff {l : List String} : sortStrs l = [] ↔ l = [] := by
  constructor
  · intro h
    have := (sortStrs_perm l).length_eq
    rw [h] at this
    exact List.length_eq_zero.mp this.symm
  · rintro rfl; rfl

/-! ## Lemmas about `pythonEq` and `valueWF` -/

mutual

theorem valueIndOn (motive : Value → Prop)
    (hnull : motive .vnull) (hbool : ∀ b, motive (.vbool b))
    (hint : ∀ n, motive (.vint n)) (hstr : ∀ s, motive (.vstr s))
    (harr : ∀ xs, (∀ x ∈ xs, motive x) → motive (.varr xs))
    (hobj : ∀ kvs, (∀ kv ∈ kvs, motive kv.2) → motive (.vobj kvs)) :
    ∀ v, motive v
  | .vnull => hnull
  | .vbool b => hbool b
  | .vint n => hint n
  | .vstr s => hstr s
  | .varr xs => harr xs (valueIndOnList motive hnull hbool hint hstr harr hobj xs)
  | .vobj kvs => hobj kvs (valueIndOnObj motive hnull hbool hint hstr harr hobj kvs)

theorem valueIndOnList (motive : Value → Prop)
    (hnull : motive .vnull) (hbool : ∀ b, motive (.vbool b))
    (hint : ∀ n, motive (.vint n)) (hstr : ∀ s, motive (.vstr s))
    (harr : ∀ xs, (∀ x ∈ xs, motive x) → motive (.varr xs))
    (hobj : ∀ kvs, (∀ kv ∈ kvs, motive kv.2) → motive (.vobj kvs)) :
    ∀ xs : List Value, ∀ x ∈ xs, motive x
  | [] => fun _ hx => absurd hx (List.not_mem_nil _)
  | y :: ys =>
    List.forall_mem_cons.mpr
      ⟨valueIndOn motive hnull hbool hint hstr harr hobj y,
       valueIndOnList motive hnull hbool hint hstr harr hobj ys⟩

theorem valueIndOnObj (motive : Value → Prop)
    (hnull : motive .vnull) (hbool : ∀ b, motive (.vbool b))
    (hint : ∀ n, motive (.vint n)) (hstr : ∀ s, motive (.vstr s))
    (harr : ∀ xs, (∀ x ∈ xs, motive x) → motive (.varr xs))
    (hobj : ∀ kvs, (∀ kv ∈ kvs, motive kv.2) → motive (.vobj kvs)) :
    ∀ kvs : List (String × Value), ∀ kv ∈ kvs, motive kv.2
  | [] => fun _ hkv => absurd hkv (List.not_mem_nil _)
  | y :: ys =>
    List.forall_mem_cons.mpr
      ⟨valueIndOn motive hnull hbool hint hstr harr hobj y.2,
       valueIndOnObj motive hnull hbool hint hstr harr hobj ys⟩

end

theorem valueWFList_forall {xs : List Value} (h : valueWFList xs = true) :
    ∀ x ∈ xs, valueWF x = true := by
  induction xs with
  | nil => intro x hx; cases hx
  | cons y ys ih =>
    rw [valueWFList, Bool.and_eq_true] at h
    intro x hx
    rcases List.mem_cons.mp hx with rfl | hx
    · exact h.1
    · exact ih h.2 x hx

theorem valueWFObj_forall {kvs : List (String × Value)} (h : valueWFObj kvs = true) :
    ∀ kv ∈ kvs, valueWF kv.2 = true := by
  induction kvs with
  | nil => intro kv hkv; cases hkv
  | cons y ys ih =>
    cases y with
    | mk k v =>
      rw [valueWFObj, Bool.and_eq_true] at h
      intro kv hkv
      rcases List.mem_cons.mp hkv with rfl | hkv
      · exact h.1
      · exact ih h.2 kv hkv

theorem pyEqList_refl {xs : List Value} (h : ∀ x ∈ xs, pythonEq x x = true) :
    pyEqList xs xs = true := by
  induction xs with
  | nil => rfl
  | cons y ys ih =>
    rw [pyEqList, Bool.and_eq_true]
    exact ⟨h y (List.mem_cons_self _ _),
      ih (fun x hx => h x (List.mem_cons_of_mem _ hx))⟩

theorem pyEqObj_iff {sub whole : List (String × Value)} :
    pyEqObj sub whole = true ↔
      ∀ kv ∈ sub, ∃ w, alookup kv.1 whole = some w ∧ pythonEq kv.2 w = true := by
  induction sub with
  | nil => simp [pyEqObj]
  | cons y ys ih =>
    cases y with
    | mk k v =>
      rw [pyEqObj, Bool.and_eq_true, ih]
      constructor
      · rintro ⟨h1, h2⟩
        intro kv hkv
        rcases List.mem_cons.mp hkv with rfl | hkv
        · cases hl : alookup k whole with
          | none => rw [hl] at h1; cases h1
          | some w => rw [hl] at h1; exact ⟨w, rfl, h1⟩
        · exact h2 kv hkv
      · intro h
        refine ⟨?_, fun kv hkv => h kv (List.mem_cons_of_mem _ hkv)⟩
        obtain ⟨w, hw, hpe⟩ := h (k, v) (List.mem_cons_self _ _)
        rw [hw]
        exact hpe

theorem pythonEq_refl : ∀ v, valueWF v = true → pythonEq v v = true := by
  intro v
  induction v using valueIndOn with
  | hnull => intro _; rfl
  | hbool b => intro _; simp [pythonEq]
  | hint n => intro _; simp [pythonEq]
  | hstr s => intro _; simp [pythonEq]
  | harr xs ih =>
    intro hwf
    rw [valueWF] at hwf
    have hall := valueWFList_forall hwf
    show pyEqList xs xs = true
    exact pyEqList_refl (fun x hx => ih x hx (hall x hx))
  | hobj kvs ih =>
    intro hwf
    rw [valueWF, Bool.and_eq_true, decide_eq_true_eq] at hwf
    have hall := valueWFObj_forall hwf.2
    show ((kvs.length == kvs.length) && pyEqObj kvs kvs) = true
    rw [Bool.and_eq_true, beq_self_eq_true]
    refine ⟨rfl, pyEqObj_iff.mpr ?_⟩
    intro kv hkv
    exact ⟨kv.2, by
      have : (kv.1, kv.2) ∈ kvs := by simpa using hkv
      exact alookup_eq_some_of_mem_nodup this hwf.1,
      ih kv hkv (hall kv hkv)⟩

theorem beqc {α : Type} [BEq α] [LawfulBEq α] (m n : α) : (m == n) = (n == m) := by
  rw [Bool.eq_iff_iff, beq_iff_eq, beq_iff_eq]
  exact eq_comm

theorem keys_supset_of_subset_of_length {l₁ l₂ : List String} (h₁ : l₁.Nodup) (h₂ : l₂.Nodup)
    (hsub : ∀ x ∈ l₁, x ∈ l₂) (hlen : l₁.length = l₂.length) : ∀ x ∈ l₂, x ∈ l₁ := by
  have hfs : l₁.toFinset ⊆ l₂.toFinset := fun x hx =>
    List.mem_toFinset.mpr (hsub x (List.mem_toFinset.mp hx))
  have hc₁ : l₁.toFinset.card = l₁.length := List.toFinset_card_of_nodup h₁
  have hc₂ : l₂.toFinset.card = l₂.length := List.toFinset_card_of_nodup h₂
  have heq : l₁.toFinset = l₂.toFinset :=
    Finset.eq_of_subset_of_card_le hfs (by omega)
  intro x hx
  exact List.mem_toFinset.mp (heq ▸ List.mem_toFinset.mpr hx)

theorem pyEqObj_keys_subset {a b : List (String × Value)} (h : pyEqObj a b = true) :
    ∀ k ∈ a.map Prod.fst, k ∈ b.map Prod.fst := by
  intro k hk
  obtain ⟨kv, hkv, rfl⟩ := List.mem_map.mp hk
  obtain ⟨w, hw, _⟩ := pyEqObj_iff.mp h kv hkv
  exact alookup_isSome_iff.mp (by rw [hw]; rfl)

theorem pyEqList_symm_aux :
    ∀ xs ys : List Value,
      (∀ x ∈ xs, valueWF x = true → ∀ b, valueWF b = true → pythonEq x b = pythonEq b x) →
      valueWFList xs = true → valueWFList ys = true → pyEqList xs ys = pyEqList ys xs := by
  intro xs
  induction xs with
  | nil => intro ys _ _ _; cases ys <;> rfl
  | cons x xs ih =>
    intro ys hIH hwx hwy
    cases ys with
    | nil => rfl
    | cons y ys =>
      rw [valueWFList, Bool.and_eq_true] at hwx hwy
      rw [pyEqList, pyEqList,
        hIH x (List.mem_cons_self _ _) hwx.1 y hwy.1,
        ih ys (fun z hz => hIH z (List.mem_cons_of_mem _ hz)) hwx.2 hwy.2]

theorem pyEqObj_flip {a b : List (String × Value)}
    (hIH : ∀ kv ∈ a, valueWF kv.2 = true → ∀ w, valueWF w = true →
      pythonEq kv.2 w = pythonEq w kv.2)
    (hnda : (a.map Prod.fst).Nodup) (hndb : (b.map Prod.fst).Nodup)
    (hwa : valueWFObj a = true) (hwb : valueWFObj b = true)
    (hlen : a.length = b.length) : pyEqObj a b = true → pyEqObj b a = true := by
  intro hab
  have hsub : ∀ k ∈ a.map Prod.fst, k ∈ b.map Prod.fst := pyEqObj_keys_subset hab
  have hsup : ∀ k ∈ b.map Prod.fst, k ∈ a.map Prod.fst :=
    keys_supset_of_subset_of_length hnda hndb hsub (by simp [hlen])
  refine pyEqObj_iff.mpr ?_
  rintro ⟨k, w⟩ hkw
  have hka : k ∈ a.map Prod.fst :=
    hsup k (List.mem_map.mpr ⟨(k, w), hkw, rfl⟩)
  obtain ⟨v, hv⟩ := Option.isSome_iff_exists.mp (alookup_isSome_iff.mpr hka)
  have hmemv : (k, v) ∈ a := mem_of_alookup_eq_some hv
  obtain ⟨w', hw', hpe⟩ := pyEqObj_iff.mp hab (k, v) hmemv
  have hwb' : alookup k b = some w := alookup_eq_some_of_mem_nodup hkw hndb
  rw [hwb'] at hw'
  cases hw'
  refine ⟨v, hv, ?_⟩
  rw [← hIH (k, v) hmemv (valueWFObj_forall hwa _ hmemv) w (valueWFObj_forall hwb _ hkw)]
  exact hpe

theorem pythonEq_symm :
    ∀ a, valueWF a = true → ∀ b, valueWF b = true → pythonEq a b = pythonEq b a := by
  intro a
  induction a using valueIndOn with
  | hnull => intro _ b _; cases b <;> rfl
  | hbool x =>
    intro _ b _
    cases b with
    | vbool y => show (x == y) = (y == x); cases x <;> cases y <;> rfl
    | vint n =>
      show ((if x then (1 : Int) else 0) == n) = (n == (if x then (1 : Int) else 0))
      exact beqc ..
    | _ => rfl
  | hint m =>
    intro _ b _
    cases b with
    | vint n => show (m == n) = (n == m); exact beqc ..
    | vbool y =>
      show (m == (if y then (1 : Int) else 0)) = ((if y then (1 : Int) else 0) == m)
      exact beqc ..
    | _ => rfl
  | hstr s =>
    intro _ b _
    cases b with
    | vstr t => show (s == t) = (t == s); exact beqc ..
    | _ => rfl
  | harr xs ih =>
    intro hwa b hwb
    cases b with
    | varr ys =>
      rw [valueWF] at hwa hwb
      exact pyEqList_symm_aux xs ys ih hwa hwb
    | _ => rfl
  | hobj kvs ih =>
    intro hwa b hwb
    cases b with
    | vobj kvs' =>
      rw [valueWF, Bool.and_eq_true, decide_eq_true_eq] at hwa hwb
      show ((kvs.length == kvs'.length) && pyEqObj kvs kvs')
        = ((kvs'.length == kvs.length) && pyEqObj kvs' kvs)
      by_cases hlen : kvs.length = kvs'.length
      · have h1 : (kvs.length == kvs'.length) = true := by simp [hlen]
        have h2 : (kvs'.length == kvs.length) = true := by simp [hlen]
        rw [h1, h2, Bool.true_and, Bool.true_and]
        have hd1 := pyEqObj_flip (fun kv hkv hw w hww => ih kv hkv hw w hww)
          hwa.1 hwb.1 hwa.2 hwb.2 hlen
        have hd2 : pyEqObj kvs' kvs = true → pyEqObj kvs kvs' = true := by
          intro hba
          have hsub : ∀ k ∈ kvs'.map Prod.fst, k ∈ kvs.map Prod.fst :=
            pyEqObj_keys_subset hba
          have hsup : ∀ k ∈ kvs.map Prod.fst, k ∈ kvs'.map Prod.fst :=
            keys_supset_of_subset_of_length hwb.1 hwa.1 hsub (by simp [hlen])
          refine pyEqObj_iff.mpr ?_
          rintro ⟨k, v⟩ hkv
          have hkb : k ∈ kvs'.map Prod.fst :=
            hsup k (List.mem_map.mpr ⟨(k, v), hkv, rfl⟩)
          obtain ⟨w, hw⟩ := Option.isSome_iff_exists.mp (alookup_isSome_iff.mpr hkb)
          have hmemw : (k, w) ∈ kvs' := mem_of_alookup_eq_some hw
          obtain ⟨v', hv', hpe⟩ := pyEqObj_iff.mp hba (k, w) hmemw
          have hva : alookup k kvs = some v := alookup_eq_some_of_mem_nodup hkv hwa.1
          rw [hva] at hv'
          cases hv'
          refine ⟨w, hw, ?_⟩
          rw [ih (k, v) hkv (valueWFObj_forall hwa.2 _ hkv) w
            (valueWFObj_forall hwb.2 _ hmemw)]
          exact hpe
        cases hab : pyEqObj kvs kvs' with
        | true => rw [hd1 hab]
        | false =>
          cases hba : pyEqObj kvs' kvs with
          | true => rw [hd2 hba] at hab; cases hab
          | false => rfl
      · have h1 : (kvs.length == kvs'.length) = false := by
          rw [beq_eq_false_iff_ne]
          exact hlen
        have h2 : (kvs'.length == kvs.length) = false := by
          rw [beq_eq_false_iff_ne]
          exact fun h => hlen h.symm
        rw [h1, h2, Bool.false_and, Bool.false_and]
    | _ => rfl

/-! ## Lemmas about the condition evaluator -/

theorem pythonEq_vnull_eq_false {v : Value} (h : v ≠ .vnull) :
    pythonEq .vnull v = false := by
  cases v with
  | vnull => exact absurd rfl h
  | vbool b => rfl
  | vint n => rfl
  | vstr s => rfl
  | varr xs => rfl
  | vobj kvs => rfl

theorem parseLiteral_ne_vnull (raw : List Char) : parseLiteral raw ≠ .vnull := by
  simp only [parseLiteral]
  split_ifs <;> simp

theorem pythonEq_vnull_parseLiteral (raw : List Char) :
    pythonEq .vnull (parseLiteral raw) = false :=
  pythonEq_vnull_eq_false (parseLiteral_ne_vnull raw)

theorem mem_get_enabled_services_iff {services : Services} {n : String} {svc : Service}
    (hnd : (services.map Prod.fst).Nodup) (hn : alookup n services = some svc) :
    n ∈ get_enabled_services services ↔
      (svc.infrastructure.enabled = true
        ∨ ∃ c ∈ svc.infrastructure.enabled_by, evaluate_condition services c = true) := by
  unfold get_enabled_services
  rw [List.mem_filterMap]
  constructor
  · rintro ⟨kv, hkv, hf⟩
    by_cases e1 : kv.2.infrastructure.enabled = true
    · rw [if_pos e1, Option.some.injEq] at hf
      subst hf
      have : alookup kv.1 services = some kv.2 :=
        alookup_eq_some_of_mem_nodup (by simpa using hkv) hnd
      rw [hn] at this
      cases this
      exact Or.inl e1
    · rw [if_neg e1] at hf
      by_cases e2 : kv.2.infrastructure.enabled_by.any
          (fun c => evaluate_condition services c) = true
      · rw [if_pos e2, Option.some.injEq] at hf
        subst hf
        have : alookup kv.1 services = some kv.2 :=
          alookup_eq_some_of_mem_nodup (by simpa using hkv) hnd
        rw [hn] at this
        cases this
        exact Or.inr (List.any_eq_true.mp e2)
      · rw [if_neg e2] at hf
        cases hf
  · intro h
    refine ⟨(n, svc), mem_of_alookup_eq_some hn, ?_⟩
    rcases h with h | hex
    · simp only [h, if_pos]
    · by_cases e1 : svc.infrastructure.enabled = true
      · simp only [e1, if_pos]
      · have e2 : svc.infrastructure.enabled_by.any
            (fun c => evaluate_condition services c) = true :=
          List.any_eq_true.mpr hex
        simp only [e1, Bool.false_eq_true, if_false, e2, if_pos]

/-- C7: condition evaluation is total and returns `false` — never an
error — when the expression fails to parse, when the referenced service does
not exist, or when the referenced field does not exist. -/
theorem c7_evaluation_totally_false_on_failure (services : Services) (condition : String) :
    (parseCondition condition.toList = none → evaluate_condition services condition = false)
    ∧ (∀ svcName fieldName isEq raw,
        parseCondition condition.toList = some (svcName, fieldName, isEq, raw) →
        (alookup svcName services = none → evaluate_condition services condition = false)
        ∧ (∀ svc, alookup svcName services = some svc →
            alookup fieldName svc.configuration.properties = none →
            evaluate_condition services condition = false)) := by
  refine ⟨?_, ?_⟩
  · intro h
    have h' : parseCondition condition.data = none := h
    simp [evaluate_condition, h']
  · intro svcName fieldName isEq raw hp
    have hp' : parseCondition condition.data = some (svcName, fieldName, isEq, raw) := hp
    refine ⟨?_, ?_⟩
    · intro h
      simp [evaluate_condition, hp', h]
    · intro svc hs hf
      simp [evaluate_condition, hp', hs, hf]

theorem c7_witness :
    parseCondition "garbage".toList = none
    ∧ evaluate_condition (condTopo (some (.vint 1))) "garbage" = false
    ∧ evaluate_condition (condTopo (some (.vint 1))) "missing.configuration.f == 1" = false
    ∧ evaluate_condition (condTopo (some (.vint 1))) "svc.configuration.missing == 1" = false :=
  ⟨rfl,
   (c7_evaluation_totally_false_on_failure (condTopo (some (.vint 1))) "garbage").1 rfl,
   ((c7_evaluation_totally_false_on_failure (condTopo (some (.vint 1)))
      "missing.configuration.f == 1").2 "missing" "f" true " 1".toList rfl).1 rfl,
   (((c7_evaluation_totally_false_on_failure (condTopo (some (.vint 1)))
      "svc.configuration.missing == 1").2 "svc" "missing" true " 1".toList rfl).2
      { infrastructure := {}, configuration := ⟨[("f", ⟨some (.vint 1)⟩)]⟩ } rfl) rfl⟩

/-- C2 counterexample: with integer default `1`, the condition
`svc.configuration.f == 1` evaluates to `false` (the claim says `true`),
and with string default `"1"` it evaluates to `true` (the claim says
`false`): the bare integer literal is compared as the string `"1"`. -/
theorem c2_counterexample :
    evaluate_condition (condTopo (some (.vint 1))) "svc.configuration.f == 1" = false
    ∧ evaluate_condition (condTopo (some (.vstr "1"))) "svc.configuration.f == 1" = true :=
  ⟨rfl, rfl⟩

/-- C2 amended: a bare integer literal is not converted to an integer — it
is compared as its (stripped) text, so `== 1` tests Python equality against
the string `"1"`; bare `true` is compared as the boolean `True` (which
Python equates with the integer `1`), and `'true'` as the string `"true"`. -/
theorem c2_amended_literal_semantics (d : Option Value) :
    evaluate_condition (condTopo d) "svc.configuration.f == 1"
      = pythonEq (d.getD .vnull) (.vstr "1")
    ∧ evaluate_condition (condTopo d) "svc.configuration.f == true"
      = pythonEq (d.getD .vnull) (.vbool true)
    ∧ evaluate_condition (condTopo d) "svc.configuration.f == 'true'"
      = pythonEq (d.getD .vnull) (.vstr "true") :=
  ⟨rfl, rfl, rfl⟩

/-- C10: a `!=` condition on an existing field with no `default` evaluates
to `true` (Python `None` differs from every parsed literal), and a service
carrying such a condition in `enabled_by` lands in the enabled set. -/
theorem c10_missing_default_makes_neq_true
    (services : Services) (cond : String) (svcName fieldName : String) (raw : List Char)
    (svc : Service) (fd : FieldDef) (n : String) (sdef : Service)
    (hp : parseCondition cond.toList = some (svcName, fieldName, false, raw))
    (hs : alookup svcName services = some svc)
    (hf : alookup fieldName svc.configuration.properties = some fd)
    (hd : fd.default = none)
    (hn : alookup n services = some sdef)
    (hnd : (services.map Prod.fst).Nodup)
    (hc : cond ∈ sdef.infrastructure.enabled_by) :
    evaluate_condition services cond = true ∧ n ∈ get_enabled_services services := by
  have heval : evaluate_condition services cond = true := by
    simp only [evaluate_condition, hp, hs, hf, hd, Option.getD_none]
    show (!pythonEq Value.vnull (parseLiteral raw)) = true
    rw [pythonEq_vnull_parseLiteral raw]
    rfl
  refine ⟨heval, ?_⟩
  rw [mem_get_enabled_services_iff hnd hn]
  exact Or.inr ⟨cond, hc, heval⟩

theorem c10_witness :
    evaluate_condition noDefaultSvcs "svc.configuration.f != 'x'" = true
    ∧ "dep" ∈ get_enabled_services noDefaultSvcs :=
  c10_missing_default_makes_neq_true noDefaultSvcs "svc.configuration.f != 'x'"
    "svc" "f" " 'x'".toList ⟨{}, ⟨[("f", ⟨none⟩)]⟩⟩ ⟨none⟩ "dep"
    ⟨{ enabled_by := ["svc.configuration.f != 'x'"] }, {}⟩
    rfl rfl rfl rfl rfl (by decide) (by decide)

/-- C6: a service is in the enabled set iff its `enabled` flag is true or
some expression of its `enabledBy` list evaluates to true. -/
theorem c6_enabled_iff (services : Services) (n : String) (svc : Service)
    (hnd : (services.map Prod.fst).Nodup) (hn : alookup n services = some svc) :
    n ∈ get_enabled_services services ↔
      (svc.infrastructure.enabled = true
        ∨ ∃ c ∈ svc.infrastructure.enabled_by, evaluate_condition services c = true) :=
  mem_get_enabled_services_iff hnd hn

theorem c6_witness :
    ("cond" ∈ get_enabled_services enableWitnessSvcs ↔
      (false = true ∨ ∃ c ∈ ["db.configuration.x == 'y'"],
        evaluate_condition enableWitnessSvcs c = true))
    ∧ "cond" ∈ get_enabled_services enableWitnessSvcs :=
  ⟨c6_enabled_iff enableWitnessSvcs "cond"
      ⟨{ enabled_by := ["db.configuration.x == 'y'"] }, {}⟩ (by decide) rfl,
   by decide⟩

/-- C3 (code behavior at the failing input): the topology has a genuine
cycle, yet neither reported path is a closed walk — the first prefixes the
DFS approach path `a → b` to the cycle, and the second, `d → a`, lies on no
cycle at all (it is reported only because the recursion stack is never
cleaned after an error return). -/
theorem c3_cycle_paths_not_closed :
    (∃ p, IsClosedWalkIn cycleTailSvcs (cycleTailSvcs.map Prod.fst) p)
    ∧ validate_no_circular_dependencies cycleTailSvcs
        = [.circularDependency ["a", "b", "c", "b"], .circularDependency ["d", "a"]]
    ∧ (∀ e ∈ validate_no_circular_dependencies cycleTailSvcs,
        (errPath e).head? ≠ (errPath e).getLast?)
    ∧ (["d", "a"] : List String).Nodup := by
  refine ⟨⟨["b", "c", "b"], ?_, ?_, ?_, ?_⟩, by decide, by decide, by decide⟩
  · decide
  · exact List.Chain.cons (by decide) (List.Chain.cons (by decide) List.Chain.nil)
  · rfl
  · decide

/-! ## Lemmas about grouping and the conflict validators -/

theorem beq_eq_decide_eq {α : Type} [BEq α] [LawfulBEq α] [DecidableEq α] (a b : α) :
    (a == b) = decide (a = b) := by
  by_cases h : a = b
  · subst h
    simp
  · rw [decide_eq_false h]
    exact beq_eq_false_iff_ne.mpr h

theorem alookup_groupAdd {κ : Type} [DecidableEq κ] (m : List (κ × List String)) (k : κ)
    (v : String) (k' : κ) :
    alookup k' (groupAdd m k v)
      = if k' = k then some ((alookup k' m).getD [] ++ [v]) else alookup k' m := by
  induction m with
  | nil =>
    by_cases h : k' = k
    · subst h; simp [groupAdd, alookup]
    · simp [groupAdd, alookup, h, Ne.symm h]
  | cons kv rest ih =>
    cases kv with
    | mk k1 vs =>
      by_cases h1 : k1 = k
      · subst h1
        by_cases h2 : k' = k1
        · subst h2; simp [groupAdd, alookup]
        · simp [groupAdd, alookup, h2, Ne.symm h2]
      · by_cases h2 : k1 = k'
        · subst h2
          simp [groupAdd, h1, alookup, Ne.symm h1]
        · simp [groupAdd, h1, alookup, h2, ih]

theorem mem_keys_groupAdd {κ : Type} [DecidableEq κ] (m : List (κ × List String)) (k : κ)
    (v : String) (k' : κ) :
    k' ∈ (groupAdd m k v).map Prod.fst ↔ k' ∈ m.map Prod.fst ∨ k' = k := by
  induction m with
  | nil => simp [groupAdd]
  | cons kv rest ih =>
    cases kv with
    | mk k1 vs =>
      by_cases h1 : k1 = k
      · subst h1; simp [groupAdd]; tauto
      · simp [groupAdd, h1, ih]; tauto

theorem nodup_keys_groupAdd {κ : Type} [DecidableEq κ] (m : List (κ × List String)) (k : κ)
    (v : String) (h : (m.map Prod.fst).Nodup) : ((groupAdd m k v).map Prod.fst).Nodup := by
  induction m with
  | nil => simp [groupAdd]
  | cons kv rest ih =>
    cases kv with
    | mk k1 vs =>
      simp only [List.map_cons, List.nodup_cons] at h
      by_cases h1 : k1 = k
      · subst h1
        have hg : groupAdd ((k1, vs) :: rest) k1 v = (k1, vs ++ [v]) :: rest := by
          simp [groupAdd]
        rw [hg, List.map_cons, List.nodup_cons]
        exact ⟨h.1, h.2⟩
      · have hg : groupAdd ((k1, vs) :: rest) k v = (k1, vs) :: groupAdd rest k v := by
          simp [groupAdd, h1]
        rw [hg, List.map_cons, List.nodup_cons]
        refine ⟨?_, ih h.2⟩
        rw [mem_keys_groupAdd]
        rintro (hm | rfl)
        · exact h.1 hm
        · exact h1 rfl

theorem foldl_groupAdd_getD {κ : Type} [DecidableEq κ] (pairs : List (κ × String))
    (m : List (κ × List String)) (k' : κ) :
    (alookup k' (pairs.foldl (fun acc kv => groupAdd acc kv.1 kv.2) m)).getD []
      = (alookup k' m).getD []
        ++ (pairs.filter (fun pr => decide (pr.1 = k'))).map Prod.snd := by
  induction pairs generalizing m with
  | nil => simp
  | cons kv rest ih =>
    cases kv with
    | mk k v =>
      rw [List.foldl_cons, ih]
      by_cases h : k = k'
      · subst h
        rw [alookup_groupAdd]
        simp
      · rw [alookup_groupAdd]
        have h' : ¬k' = k := fun hh => h hh.symm
        simp [h', h]

theorem mem_keys_foldl_groupAdd {κ : Type} [DecidableEq κ] (pairs : List (κ × String))
    (m : List (κ × List String)) (k' : κ) :
    k' ∈ (pairs.foldl (fun acc kv => groupAdd acc kv.1 kv.2) m).map Prod.fst
      ↔ k' ∈ m.map Prod.fst ∨ k' ∈ pairs.map Prod.fst := by
  induction pairs generalizing m with
  | nil => simp
  | cons kv rest ih =>
    rw [List.foldl_cons, ih, mem_keys_groupAdd]
    simp
    tauto

theorem nodup_keys_foldl_groupAdd {κ : Type} [DecidableEq κ] (pairs : List (κ × String))
    (m : List (κ × List String)) (h : (m.map Prod.fst).Nodup) :
    ((pairs.foldl (fun acc kv => groupAdd acc kv.1 kv.2) m).map Prod.fst).Nodup := by
  induction pairs generalizing m with
  | nil => exact h
  | cons kv rest ih => exact ih _ (nodup_keys_groupAdd _ _ _ h)

theorem alookup_groupPairs_getD {κ : Type} [DecidableEq κ] (pairs : List (κ × String)) (k' : κ) :
    (alookup k' (groupPairs pairs)).getD []
      = (pairs.filter (fun pr => decide (pr.1 = k'))).map Prod.snd := by
  unfold groupPairs
  rw [foldl_groupAdd_getD]
  rfl

theorem mem_keys_groupPairs {κ : Type} [DecidableEq κ] (pairs : List (κ × String)) (k' : κ) :
    k' ∈ (groupPairs pairs).map Prod.fst ↔ k' ∈ pairs.map Prod.fst := by
  unfold groupPairs
  rw [mem_keys_foldl_groupAdd]
  simp

theorem nodup_keys_groupPairs {κ : Type} [DecidableEq κ] (pairs : List (κ × String)) :
    ((groupPairs pairs).map Prod.fst).Nodup :=
  nodup_keys_foldl_groupAdd pairs [] (by simp)

theorem entry_groupPairs {κ : Type} [DecidableEq κ] {pairs : List (κ × String)} {k : κ}
    {ss : List String} (h : (k, ss) ∈ groupPairs pairs) :
    ss = (pairs.filter (fun pr => decide (pr.1 = k))).map Prod.snd := by
  have hl : alookup k (groupPairs pairs) = some ss :=
    alookup_eq_some_of_mem_nodup h (nodup_keys_groupPairs pairs)
  have := alookup_groupPairs_getD pairs k
  rw [hl] at this
  exact this

theorem length_filterMap_ite {α β : Type} (l : List α) (P : α → Prop) [DecidablePred P]
    (g : α → β) :
    (l.filterMap (fun e => if P e then some (g e) else none)).length
      = l.countP (fun e => decide (P e)) := by
  induction l with
  | nil => rfl
  | cons a rest ih =>
    by_cases h : P a
    · simp [List.filterMap_cons, h, ih, List.countP_cons]
    · simp [List.filterMap_cons, h, ih, List.countP_cons]

theorem countP_filterMap_ite {α β : Type} (l : List α) (P : α → Prop) [DecidablePred P]
    (g : α → β) (r : β → Bool) :
    (l.filterMap (fun e => if P e then some (g e) else none)).countP r
      = l.countP (fun e => decide (P e) && r (g e)) := by
  induction l with
  | nil => rfl
  | cons a rest ih =>
    by_cases h : P a
    · simp [List.filterMap_cons, h, ih, List.countP_cons]
    · simp [List.filterMap_cons, h, ih, List.countP_cons]

theorem mem_filterMap_ite {α β : Type} {l : List α} {P : α → Prop} [DecidablePred P]
    {g : α → β} {y : β} :
    y ∈ l.filterMap (fun e => if P e then some (g e) else none)
      ↔ ∃ e ∈ l, P e ∧ g e = y := by
  rw [List.mem_filterMap]
  constructor
  · rintro ⟨e, he, hf⟩
    by_cases h : P e
    · rw [if_pos h, Option.some.injEq] at hf
      exact ⟨e, he, h, hf⟩
    · rw [if_neg h] at hf
      cases hf
  · rintro ⟨e, he, hP, hg⟩
    exact ⟨e, he, by rw [if_pos hP, hg]⟩

theorem countP_eq_zero_of_alookup_none {κ β : Type} [DecidableEq κ] {l : List (κ × β)} {p : κ}
    (h : alookup p l = none) (q : κ × β → Bool) :
    l.countP (fun e => decide (e.1 = p) && q e) = 0 := by
  induction l with
  | nil => rfl
  | cons kv rest ih =>
    cases kv with
    | mk k1 v1 =>
      by_cases h1 : k1 = p
      · subst h1; simp [alookup] at h
      · simp only [alookup, if_neg h1] at h
        rw [List.countP_cons]
        simp [h1, ih h]

theorem countP_eq_one_of_alookup_some {κ β : Type} [DecidableEq κ] {l : List (κ × β)} {p : κ}
    {v : β} (hnd : (l.map Prod.fst).Nodup) (h : alookup p l = some v) (q : κ × β → Bool) :
    l.countP (fun e => decide (e.1 = p) && q e) = if q (p, v) then 1 else 0 := by
  induction l with
  | nil => simp [alookup] at h
  | cons kv rest ih =>
    cases kv with
    | mk k1 v1 =>
      simp only [List.map_cons, List.nodup_cons] at hnd
      by_cases h1 : k1 = p
      · subst h1
        simp [alookup] at h
        subst h
        have hz : rest.countP (fun e => decide (e.1 = k1) && q e) = 0 :=
          countP_eq_zero_of_alookup_none (alookup_eq_none_iff.mpr hnd.1) q
        rw [List.countP_cons, hz]
        simp
      · simp only [alookup, if_neg h1] at h
        rw [List.countP_cons, ih hnd.2 h]
        simp [h1]

theorem publishedPairs_filter_eq_carriers (services : Services) (p : Int) :
    ((publishedPairs services).filter (fun pr => decide (pr.1 = p))).map Prod.snd
      = portCarriers services p := by
  induction services with
  | nil => rfl
  | cons kv rest ih =>
    cases hpub : kv.2.infrastructure.published_port with
    | none =>
      simp only [publishedPairs, List.filterMap_cons, hpub, Option.map_none', portCarriers]
      simp only [publishedPairs, portCarriers] at ih
      simpa [hpub] using ih
    | some q =>
      by_cases hq : q = p
      · subst hq
        simp only [publishedPairs, List.filterMap_cons, hpub, Option.map_some', portCarriers]
        simp only [publishedPairs, portCarriers] at ih
        simpa [hpub] using ih
      · simp only [publishedPairs, List.filterMap_cons, hpub, Option.map_some', portCarriers]
        simp only [publishedPairs, portCarriers] at ih
        have : ¬kv.2.infrastructure.published_port = some p := by
          rw [hpub]; exact fun hh => hq (Option.some.injEq .. ▸ hh)
        simpa [hq, this] using ih

theorem containerPairs_filter_eq_carriers (services : Services) (c : String)
    (hcn : ∀ kv ∈ services, kv.2.infrastructure.container_name ≠ some "") :
    ((containerPairs services).filter (fun pr => decide (pr.1 = c))).map Prod.snd
      = nameCarriers services c := by
  induction services with
  | nil => rfl
  | cons kv rest ih =>
    have hcn' : ∀ kv ∈ rest, kv.2.infrastructure.container_name ≠ some "" :=
      fun x hx => hcn x (List.mem_cons_of_mem _ hx)
    have ih' := ih hcn'
    simp only [containerPairs, nameCarriers] at ih'
    cases hc : kv.2.infrastructure.container_name with
    | none =>
      simp only [containerPairs, List.filterMap_cons, hc, nameCarriers]
      simpa [hc] using ih'
    | some d =>
      have hdne : ¬d = "" := by
        intro hde
        exact hcn kv (List.mem_cons_self _ _) (by rw [hc, hde])
      by_cases hdc : d = c
      · subst hdc
        simp only [containerPairs, List.filterMap_cons, hc, nameCarriers]
        simpa [hc, hdne] using ih'
      · simp only [containerPairs, List.filterMap_cons, hc, nameCarriers]
        have : ¬kv.2.infrastructure.container_name = some c := by
          rw [hc]; exact fun hh => hdc (Option.some.injEq .. ▸ hh)
        simpa [hdne, hdc, this] using ih'

theorem carriers_mem_keys {κ : Type} [DecidableEq κ] {pairs : List (κ × String)} {p : κ}
    (h : ((pairs.filter (fun pr => decide (pr.1 = p))).map Prod.snd) ≠ []) :
    p ∈ pairs.map Prod.fst := by
  cases hf : pairs.filter (fun pr => decide (pr.1 = p)) with
  | nil => rw [hf] at h; simp at h
  | cons pr rest =>
    have hpr : pr ∈ pairs.filter (fun pr => decide (pr.1 = p)) := by
      rw [hf]; exact List.mem_cons_self _ _
    have := List.mem_filter.mp hpr
    rw [decide_eq_true_eq] at this
    exact List.mem_map.mpr ⟨pr, this.1, this.2⟩

theorem conflictList_spec {κ : Type} [DecidableEq κ] (pairs : List (κ × String))
    (mk : κ → List String → VErr) (p : κ) (sel : VErr → Bool)
    (hsel : ∀ k ss, sel (mk k ss) = (k == p))
    (himk : ∀ k ss k' ss', mk k ss = mk k' ss' → k = k' ∧ ss = ss') :
    (((groupPairs pairs).filterMap
        (fun e => if 1 < e.2.length then some (mk e.1 e.2) else none)).length
      = ((pairs.map Prod.fst).dedup.filter
          (fun q => decide (2 ≤ ((pairs.filter
            (fun pr => decide (pr.1 = q))).map Prod.snd).length))).length)
    ∧ (((groupPairs pairs).filterMap
        (fun e => if 1 < e.2.length then some (mk e.1 e.2) else none)).countP sel
      = if 2 ≤ ((pairs.filter (fun pr => decide (pr.1 = p))).map Prod.snd).length
        then 1 else 0)
    ∧ (∀ k ss,
        mk k ss ∈ (groupPairs pairs).filterMap
          (fun e => if 1 < e.2.length then some (mk e.1 e.2) else none) →
        ss = (pairs.filter (fun pr => decide (pr.1 = k))).map Prod.snd ∧ 2 ≤ ss.length) := by
  refine ⟨?_, ?_, ?_⟩
  · rw [length_filterMap_ite]
    have h1 : (groupPairs pairs).countP (fun e => decide (1 < e.2.length))
        = (groupPairs pairs).countP (fun e =>
            decide (2 ≤ ((pairs.filter (fun pr => decide (pr.1 = e.1))).map Prod.snd).length)) := by
      refine List.countP_congr ?_
      rintro ⟨k, ss⟩ he
      have := entry_groupPairs he
      simp only [← this]
      rfl
    rw [h1]
    have h2 : (groupPairs pairs).countP (fun e =>
          decide (2 ≤ ((pairs.filter (fun pr => decide (pr.1 = e.1))).map Prod.snd).length))
        = ((groupPairs pairs).map Prod.fst).countP (fun q =>
            decide (2 ≤ ((pairs.filter (fun pr => decide (pr.1 = q))).map Prod.snd).length)) := by
      rw [List.countP_map]
      rfl
    rw [h2]
    have hperm : List.Perm ((groupPairs pairs).map Prod.fst) ((pairs.map Prod.fst).dedup) :=
      (List.perm_ext_iff_of_nodup (nodup_keys_groupPairs pairs)
        (List.nodup_dedup _)).mpr
        (fun q => by rw [mem_keys_groupPairs, List.mem_dedup])
    rw [hperm.countP_eq, List.countP_eq_length_filter]
  · rw [countP_filterMap_ite]
    have h1 : (groupPairs pairs).countP
          (fun e => decide (1 < e.2.length) && sel (mk e.1 e.2))
        = (groupPairs pairs).countP
            (fun e => decide (e.1 = p) && decide (1 < e.2.length)) := by
      refine List.countP_congr ?_
      rintro ⟨k, ss⟩ _
      rw [hsel, beq_eq_decide_eq, Bool.and_comm]
    rw [h1]
    by_cases hp : p ∈ pairs.map Prod.fst
    · have hkp : p ∈ (groupPairs pairs).map Prod.fst := (mem_keys_groupPairs pairs p).mpr hp
      obtain ⟨ss, hss⟩ := Option.isSome_iff_exists.mp (alookup_isSome_iff.mpr hkp)
      have hval : ss = (pairs.filter (fun pr => decide (pr.1 = p))).map Prod.snd := by
        have := alookup_groupPairs_getD pairs p
        rw [hss] at this
        exact this
      rw [countP_eq_one_of_alookup_some (nodup_keys_groupPairs pairs) hss
        (fun e => decide (1 < e.2.length))]
      rw [← hval]
      rcases Nat.lt_or_ge 1 ss.length with h | h
      · rw [if_pos (decide_eq_true h), if_pos (show 2 ≤ ss.length from h)]
      · rw [if_neg (by simp only [decide_eq_true_eq]; omega),
          if_neg (show ¬2 ≤ ss.length from by omega)]
    · have hnone : alookup p (groupPairs pairs) = none :=
        alookup_eq_none_iff.mpr (fun hm => hp ((mem_keys_groupPairs pairs p).mp hm))
      rw [countP_eq_zero_of_alookup_none hnone]
      have hcar : (pairs.filter (fun pr => decide (pr.1 = p))).map Prod.snd = [] := by
        by_contra hne
        exact hp (carriers_mem_keys hne)
      rw [hcar, if_neg (by simp)]
  · intro k ss hmem
    obtain ⟨e, he, hlen, heq⟩ := mem_filterMap_ite.mp hmem
    obtain ⟨hk, hss⟩ := himk e.1 e.2 k ss heq
    have hval := @entry_groupPairs _ _ pairs e.1 e.2 (by
      cases e
      exact he)
    subst hk
    subst hss
    exact ⟨hval, hlen⟩

/-- C5: for every duplicated `published_port` (resp. `container_name`) value
the validator emits exactly one conflict error, `k` errors in total for `k`
shared values, and each error lists precisely the services carrying the
conflicting value. -/
theorem c5_one_error_per_conflict (services : Services)
    (hcn : ∀ kv ∈ services, kv.2.infrastructure.container_name ≠ some "") :
    ((validate_service_ports services).length = (specSharedPortValues services).length
      ∧ (∀ p : Int, (validate_service_ports services).countP (errIsPortConflictOn p)
          = if 2 ≤ (portCarriers services p).length then 1 else 0)
      ∧ (∀ p ss, VErr.portConflict p ss ∈ validate_service_ports services →
          ss = portCarriers services p ∧ 2 ≤ ss.length))
    ∧ ((validate_container_names services).length = (specSharedNameValues services).length
      ∧ (∀ c : String, (validate_container_names services).countP (errIsNameConflictOn c)
          = if 2 ≤ (nameCarriers services c).length then 1 else 0)
      ∧ (∀ c ss, VErr.nameConflict c ss ∈ validate_container_names services →
          ss = nameCarriers services c ∧ 2 ≤ ss.length)) := by
  constructor
  · refine ⟨?_, ?_, ?_⟩
    · have h := (conflictList_spec (publishedPairs services) VErr.portConflict 0
        (errIsPortConflictOn 0) (fun k ss => rfl)
        (fun k ss k' ss' h => by
          rw [VErr.portConflict.injEq] at h
          exact h)).1
      rw [validate_service_ports, h, specSharedPortValues]
      congr 1
      refine List.filter_congr ?_
      intro q _
      rw [publishedPairs_filter_eq_carriers]
    · intro p
      have h := (conflictList_spec (publishedPairs services) VErr.portConflict p
        (errIsPortConflictOn p) (fun k ss => rfl)
        (fun k ss k' ss' h => by
          rw [VErr.portConflict.injEq] at h
          exact h)).2.1
      rw [validate_service_ports, h, publishedPairs_filter_eq_carriers]
    · intro p ss hmem
      have h := (conflictList_spec (publishedPairs services) VErr.portConflict p
        (errIsPortConflictOn p) (fun k ss => rfl)
        (fun k ss k' ss' h => by
          rw [VErr.portConflict.injEq] at h
          exact h)).2.2 p ss (by rw [← validate_service_ports]; exact hmem)
      rw [publishedPairs_filter_eq_carriers] at h
      exact h
  · refine ⟨?_, ?_, ?_⟩
    · have h := (conflictList_spec (containerPairs services) VErr.nameConflict ""
        (errIsNameConflictOn "") (fun k ss => rfl)
        (fun k ss k' ss' h => by
          rw [VErr.nameConflict.injEq] at h
          exact h)).1
      rw [validate_container_names, h, specSharedNameValues]
      congr 1
      refine List.filter_congr ?_
      intro q _
      rw [containerPairs_filter_eq_carriers services q hcn]
    · intro c
      have h := (conflictList_spec (containerPairs services) VErr.nameConflict c
        (errIsNameConflictOn c) (fun k ss => rfl)
        (fun k ss k' ss' h => by
          rw [VErr.nameConflict.injEq] at h
          exact h)).2.1
      rw [validate_container_names, h, containerPairs_filter_eq_carriers services c hcn]
    · intro c ss hmem
      have h := (conflictList_spec (containerPairs services) VErr.nameConflict c
        (errIsNameConflictOn c) (fun k ss => rfl)
        (fun k ss k' ss' h => by
          rw [VErr.nameConflict.injEq] at h
          exact h)).2.2 c ss (by rw [← validate_container_names]; exact hmem)
      rw [containerPairs_filter_eq_carriers services c hcn] at h
      exact h

theorem c5_witness :
    validate_service_ports conflictSvcs
      = [.portConflict 8080 ["s1", "s2"], .portConflict 9090 ["s3", "s4"]]
    ∧ (validate_service_ports conflictSvcs).length = (specSharedPortValues conflictSvcs).length
    ∧ (validate_service_ports conflictSvcs).countP (errIsPortConflictOn 8080) = 1
    ∧ validate_container_names conflictSvcs = [.nameConflict "web" ["s1", "s2"]]
    ∧ (validate_container_names conflictSvcs).countP (errIsNameConflictOn "api") = 0 := by
  have h := c5_one_error_per_conflict conflictSvcs (by decide)
  refine ⟨by decide, h.1.1, ?_, by decide, ?_⟩
  · rw [h.1.2.1 8080]
    decide
  · rw [h.2.2.1 "api"]
    decide

/-! ## Lemmas about the state tracker diff -/

theorem pyGet_wf {o : FieldObj} (h : valueWFObj o = true) (k : String) :
    valueWF (pyGet o k) = true := by
  unfold pyGet
  cases hl : alookup k o with
  | none => rfl
  | some v => exact valueWFObj_forall h (k, v) (mem_of_alookup_eq_some hl)

theorem snapWF_nodup {st : Snapshot} (h : snapWF st = true) :
    (st.services.map Prod.fst).Nodup := by
  rw [snapWF, Bool.and_eq_true, decide_eq_true_eq] at h
  exact h.1

theorem snapWF_svcOf {st : Snapshot} (h : snapWF st = true) (n : String) :
    svcSnapWF (svcOf st n) = true := by
  rw [snapWF, Bool.and_eq_true] at h
  unfold svcOf
  cases hl : alookup n st.services with
  | none => rfl
  | some s => exact List.all_eq_true.mp h.2 (n, s) (mem_of_alookup_eq_some hl)

theorem svcSnapWF_nodup {s : SvcSnap} (h : svcSnapWF s = true) :
    (s.fields.map Prod.fst).Nodup := by
  rw [svcSnapWF, Bool.and_eq_true, decide_eq_true_eq] at h
  exact h.1

theorem svcSnapWF_fieldOf {s : SvcSnap} (h : svcSnapWF s = true) (fn : String) :
    valueWFObj (fieldOf s fn) = true := by
  rw [svcSnapWF, Bool.and_eq_true] at h
  unfold fieldOf
  cases hl : alookup fn s.fields with
  | none => rfl
  | some o => exact List.all_eq_true.mp h.2 (fn, o) (mem_of_alookup_eq_some hl)

theorem fieldChange_self {o : FieldObj} (h : valueWFObj o = true) :
    fieldChange o o = { value := none, state := none } := by
  unfold fieldChange
  simp [pythonEq_refl _ (pyGet_wf h "value"), pythonEq_refl _ (pyGet_wf h "state")]

theorem filter_not_mem_self {α : Type} [DecidableEq α] (l : List α) :
    l.filter (fun k => decide (k ∉ l)) = [] := by
  rw [List.filter_eq_nil]
  intro a ha
  simp [ha]

theorem svcFieldsAdded_self (x : SvcSnap) : svcFieldsAdded x x = [] := by
  unfold svcFieldsAdded
  rw [filter_not_mem_self]
  rfl

theorem fieldEntry_self {x : SvcSnap} (h : svcSnapWF x = true) (fn : String) :
    fieldEntry x x fn = none := by
  unfold fieldEntry
  rw [fieldChange_self (svcSnapWF_fieldOf h fn)]
  rfl

theorem svcFieldsChanged_self {x : SvcSnap} (h : svcSnapWF x = true) :
    svcFieldsChanged x x = [] := by
  unfold svcFieldsChanged
  rw [List.filterMap_eq_nil]
  intro fn _
  exact fieldEntry_self h fn

theorem compare_service_states_eq_none_iff (x y : SvcSnap) :
    compare_service_states x y = none ↔
      (svcFieldsAdded x y = [] ∧ svcFieldsAdded y x = [] ∧ svcFieldsChanged x y = []) := by
  unfold compare_service_states
  split_ifs with h
  · rw [Bool.and_eq_true, Bool.and_eq_true] at h
    simp only [true_iff]
    exact ⟨List.isEmpty_iff.mp h.1.1, List.isEmpty_iff.mp h.1.2, List.isEmpty_iff.mp h.2⟩
  · constructor
    · intro hh; cases hh
    · rintro ⟨h1, h2, h3⟩
      exact absurd (by rw [h1, h2, h3]; rfl) h

theorem compare_service_states_self {x : SvcSnap} (h : svcSnapWF x = true) :
    compare_service_states x x = none := by
  rw [compare_service_states_eq_none_iff]
  exact ⟨svcFieldsAdded_self x, svcFieldsAdded_self x, svcFieldsChanged_self h⟩

theorem fieldChange_value_none_iff {o n : FieldObj} :
    (fieldChange o n).value = none ↔ pythonEq (pyGet o "value") (pyGet n "value") = true := by
  unfold fieldChange
  by_cases h : pythonEq (pyGet o "value") (pyGet n "value") = true
  · simp [h]
  · simp [h]

theorem fieldChange_state_none_iff {o n : FieldObj} :
    (fieldChange o n).state = none ↔ pythonEq (pyGet o "state") (pyGet n "state") = true := by
  unfold fieldChange
  by_cases h : pythonEq (pyGet o "state") (pyGet n "state") = true
  · simp [h]
  · simp [h]

theorem fieldEntry_eq_none_iff {x y : SvcSnap} {fn : String} :
    fieldEntry x y fn = none ↔
      ((fieldChange (fieldOf x fn) (fieldOf y fn)).value = none
        ∧ (fieldChange (fieldOf x fn) (fieldOf y fn)).state = none) := by
  show (if ((fieldChange (fieldOf x fn) (fieldOf y fn)).value.isSome
      || (fieldChange (fieldOf x fn) (fieldOf y fn)).state.isSome) = true
    then some (fn, fieldChange (fieldOf x fn) (fieldOf y fn)) else none) = none ↔ _
  split_ifs with hv
  · rw [Bool.or_eq_true] at hv
    constructor
    · intro hh; cases hh
    · rintro ⟨h1, h2⟩
      rcases hv with hv | hv
      · rw [h1] at hv; cases hv
      · rw [h2] at hv; cases hv
  · rw [Bool.or_eq_true] at hv
    push_neg at hv
    simp only [true_iff]
    exact ⟨Option.not_isSome_iff_eq_none.mp (by simpa using hv.1),
      Option.not_isSome_iff_eq_none.mp (by simpa using hv.2)⟩

theorem fieldEntry_none_flip {x y : SvcSnap} (hx : svcSnapWF x = true)
    (hy : svcSnapWF y = true) (fn : String) :
    (fieldEntry x y fn = none ↔ fieldEntry y x fn = none) := by
  rw [fieldEntry_eq_none_iff, fieldEntry_eq_none_iff,
    fieldChange_value_none_iff, fieldChange_value_none_iff,
    fieldChange_state_none_iff, fieldChange_state_none_iff,
    pythonEq_symm _ (pyGet_wf (svcSnapWF_fieldOf hx fn) "value")
      _ (pyGet_wf (svcSnapWF_fieldOf hy fn) "value"),
    pythonEq_symm _ (pyGet_wf (svcSnapWF_fieldOf hx fn) "state")
      _ (pyGet_wf (svcSnapWF_fieldOf hy fn) "state")]

theorem mem_svcFieldsCommon_iff {x y : SvcSnap} {fn : String} :
    fn ∈ svcFieldsCommon x y ↔
      fn ∈ x.fields.map Prod.fst ∧ fn ∈ y.fields.map Prod.fst := by
  unfold svcFieldsCommon
  rw [mem_sortStrs, List.mem_filter, decide_eq_true_eq]

theorem svcFieldsChanged_nil_flip {x y : SvcSnap} (hx : svcSnapWF x = true)
    (hy : svcSnapWF y = true) :
    (svcFieldsChanged x y = [] ↔ svcFieldsChanged y x = []) := by
  unfold svcFieldsChanged
  rw [List.filterMap_eq_nil, List.filterMap_eq_nil]
  constructor
  · intro h fn hm
    rw [← fieldEntry_none_flip hx hy fn]
    exact h fn (mem_svcFieldsCommon_iff.mpr (And.comm.mp (mem_svcFieldsCommon_iff.mp hm)))
  · intro h fn hm
    rw [fieldEntry_none_flip hx hy fn]
    exact h fn (mem_svcFieldsCommon_iff.mpr (And.comm.mp (mem_svcFieldsCommon_iff.mp hm)))

theorem compare_service_states_none_flip {x y : SvcSnap} (hx : svcSnapWF x = true)
    (hy : svcSnapWF y = true) :
    (compare_service_states x y = none ↔ compare_service_states y x = none) := by
  rw [compare_service_states_eq_none_iff, compare_service_states_eq_none_iff,
    svcFieldsChanged_nil_flip hx hy]
  tauto

theorem compare_service_states_some {x y : SvcSnap} {dx : SvcDiff}
    (h : compare_service_states x y = some dx) :
    dx = ⟨svcFieldsAdded x y, svcFieldsAdded y x, svcFieldsChanged x y⟩ := by
  unfold compare_service_states at h
  split_ifs at h
  exact (Option.some.inj h).symm

theorem keys_filterMap_pair_subset {α : Type} {l : List String} {f : String → Option α}
    {k : String}
    (hk : k ∈ (l.filterMap (fun m => (f m).map (fun d => (m, d)))).map Prod.fst) : k ∈ l := by
  obtain ⟨kv, hmem, hfst⟩ := List.mem_map.mp hk
  obtain ⟨m, hm, hfm⟩ := List.mem_filterMap.mp hmem
  obtain ⟨d, _, hd⟩ := Option.map_eq_some'.mp hfm
  rw [← hfst, ← hd]
  exact hm

theorem alookup_filterMap_pair {α : Type} {l : List String} (hnd : l.Nodup)
    (f : String → Option α) {n : String} (hn : n ∈ l) :
    alookup n (l.filterMap (fun m => (f m).map (fun d => (m, d)))) = f n := by
  induction l with
  | nil => cases hn
  | cons m rest ih =>
    rw [List.nodup_cons] at hnd
    rcases List.mem_cons.mp hn with rfl | hmem
    · cases hf : f n with
      | none =>
        simp only [List.filterMap_cons, hf, Option.map_none']
        exact alookup_eq_none_iff.mpr (fun hk => hnd.1 (keys_filterMap_pair_subset hk))
      | some d =>
        simp only [List.filterMap_cons, hf, Option.map_some']
        simp [alookup]
    · have hmn : m ≠ n := fun he => hnd.1 (he ▸ hmem)
      cases hf : f m with
      | none =>
        simp only [List.filterMap_cons, hf, Option.map_none']
        exact ih hnd.2 hmem
      | some d =>
        simp only [List.filterMap_cons, hf, Option.map_some', alookup, if_neg hmn]
        exact ih hnd.2 hmem

theorem commonServices_nodup {a b : Snapshot} (ha : snapWF a = true) :
    (commonServices a b).Nodup :=
  sortStrs_nodup ((snapWF_nodup ha).filter _)

theorem mem_commonServices_iff {a b : Snapshot} {n : String} :
    n ∈ commonServices a b ↔
      n ∈ a.services.map Prod.fst ∧ n ∈ b.services.map Prod.fst := by
  unfold commonServices
  rw [mem_sortStrs, List.mem_filter, decide_eq_true_eq]

theorem modified_lookup (a b : Snapshot) (ha : snapWF a = true) {n : String}
    (hn : n ∈ commonServices a b) :
    alookup n (compare_states a b).services_modified
      = compare_service_states (svcOf a n) (svcOf b n) := by
  show alookup n ((commonServices a b).filterMap
    (fun m => (compare_service_states (svcOf a m) (svcOf b m)).map (fun d => (m, d)))) = _
  exact alookup_filterMap_pair (commonServices_nodup ha)
    (fun m => compare_service_states (svcOf a m) (svcOf b m)) hn

/-- C8: the diff of a snapshot with itself is empty, and the diffs of a
pair of snapshots taken in both orders mirror each other: `servicesAdded`
against `servicesRemoved`, and per common service `fieldsAdded` against
`fieldsRemoved`. -/
theorem c8_diff_roundtrip (s a b : Snapshot) (n : String)
    (hs : snapWF s = true) (ha : snapWF a = true) (hb : snapWF b = true)
    (hn : n ∈ commonServices a b) :
    (compare_states s s).services_added = []
    ∧ (compare_states s s).services_removed = []
    ∧ (compare_states s s).services_modified = []
    ∧ (compare_states a b).services_added = (compare_states b a).services_removed
    ∧ (compare_states a b).services_removed = (compare_states b a).services_added
    ∧ fieldsAddedIn (compare_states a b) n = fieldsRemovedIn (compare_states b a) n
    ∧ fieldsRemovedIn (compare_states a b) n = fieldsAddedIn (compare_states b a) n := by
  have hself : snapServicesAdded s s = [] := by
    unfold snapServicesAdded
    rw [filter_not_mem_self]
    rfl
  have hmods : (compare_states s s).services_modified = [] := by
    show (commonServices s s).filterMap _ = []
    rw [List.filterMap_eq_nil]
    intro m _
    rw [compare_service_states_self (snapWF_svcOf hs m)]
    rfl
  have hn' : n ∈ commonServices b a :=
    mem_commonServices_iff.mpr (And.comm.mp (mem_commonServices_iff.mp hn))
  have hwx : svcSnapWF (svcOf a n) = true := snapWF_svcOf ha n
  have hwy : svcSnapWF (svcOf b n) = true := snapWF_svcOf hb n
  have hfields : fieldsAddedIn (compare_states a b) n = fieldsRemovedIn (compare_states b a) n
      ∧ fieldsRemovedIn (compare_states a b) n = fieldsAddedIn (compare_states b a) n := by
    unfold fieldsAddedIn fieldsRemovedIn
    rw [modified_lookup a b ha hn, modified_lookup b a hb hn']
    cases hxy : compare_service_states (svcOf a n) (svcOf b n) with
    | none =>
      rw [(compare_service_states_none_flip hwx hwy).mp hxy]
      exact ⟨rfl, rfl⟩
    | some dx =>
      cases hyx : compare_service_states (svcOf b n) (svcOf a n) with
      | none =>
        rw [(compare_service_states_none_flip hwy hwx).mp hyx] at hxy
        cases hxy
      | some dy =>
        rw [compare_service_states_some hxy, compare_service_states_some hyx]
        exact ⟨rfl, rfl⟩
  exact ⟨hself, hself, hmods, rfl, rfl, hfields.1, hfields.2⟩

theorem c8_witness :
    (compare_states snapP snapP).services_added = []
    ∧ (compare_states snapP snapP).services_removed = []
    ∧ (compare_states snapP snapP).services_modified = []
    ∧ (compare_states snapP snapQ).services_added = (compare_states snapQ snapP).services_removed
    ∧ (compare_states snapP snapQ).services_removed = (compare_states snapQ snapP).services_added
    ∧ fieldsAddedIn (compare_states snapP snapQ) "svc"
        = fieldsRemovedIn (compare_states snapQ snapP) "svc"
    ∧ fieldsRemovedIn (compare_states snapP snapQ) "svc"
        = fieldsAddedIn (compare_states snapQ snapP) "svc" :=
  c8_diff_roundtrip snapP snapP snapQ "svc" (by decide) (by decide) (by decide) (by decide)

/-- C9: the per-field comparison consults only the `value` and `state`
entries, so snapshots whose common services agree on field names and on the
`value`/`state` of each field produce an empty `servicesModified`, whatever
the other per-field attributes are. -/
theorem c9_modified_ignores_other_attributes (a b : Snapshot)
    (ha : snapWF a = true) (hb : snapWF b = true)
    (hkeys : ∀ n ∈ commonServices a b, ∀ k,
      k ∈ (svcOf a n).fields.map Prod.fst ↔ k ∈ (svcOf b n).fields.map Prod.fst)
    (hvals : ∀ n ∈ commonServices a b, ∀ fn ∈ (svcOf a n).fields.map Prod.fst,
      pyGet (fieldOf (svcOf a n) fn) "value" = pyGet (fieldOf (svcOf b n) fn) "value"
      ∧ pyGet (fieldOf (svcOf a n) fn) "state" = pyGet (fieldOf (svcOf b n) fn) "state") :
    (compare_states a b).services_modified = [] := by
  show (commonServices a b).filterMap _ = []
  rw [List.filterMap_eq_nil]
  intro n hn
  have hnone : compare_service_states (svcOf a n) (svcOf b n) = none := by
    rw [compare_service_states_eq_none_iff]
    refine ⟨?_, ?_, ?_⟩
    · unfold svcFieldsAdded
      have : ((svcOf b n).fields.map Prod.fst).filter
          (fun k => decide (k ∉ (svcOf a n).fields.map Prod.fst)) = [] := by
        rw [List.filter_eq_nil]
        intro k hk
        simp only [decide_eq_true_eq, Decidable.not_not]
        exact (hkeys n hn k).mpr hk
      rw [this]
      rfl
    · unfold svcFieldsAdded
      have : ((svcOf a n).fields.map Prod.fst).filter
          (fun k => decide (k ∉ (svcOf b n).fields.map Prod.fst)) = [] := by
        rw [List.filter_eq_nil]
        intro k hk
        simp only [decide_eq_true_eq, Decidable.not_not]
        exact (hkeys n hn k).mp hk
      rw [this]
      rfl
    · unfold svcFieldsChanged
      rw [List.filterMap_eq_nil]
      intro fn hfn
      have hmem := (mem_svcFieldsCommon_iff.mp hfn).1
      obtain ⟨hv, hst⟩ := hvals n hn fn hmem
      rw [fieldEntry_eq_none_iff, fieldChange_value_none_iff, fieldChange_state_none_iff,
        hv, hst]
      exact ⟨pythonEq_refl _ (pyGet_wf (svcSnapWF_fieldOf (snapWF_svcOf hb n) fn) "value"),
        pythonEq_refl _ (pyGet_wf (svcSnapWF_fieldOf (snapWF_svcOf hb n) fn) "state")⟩
  rw [hnone]
  rfl

theorem c9_witness :
    (compare_states snapP snapPReq).services_modified = [] :=
  c9_modified_ignores_other_attributes snapP snapPReq (by decide) (by decide)
    (by
      intro n hn k
      rw [show commonServices snapP snapPReq = ["svc"] from rfl] at hn
      rcases List.mem_singleton.mp hn with rfl
      exact Iff.rfl)
    (by
      intro n hn fn hfn
      rw [show commonServices snapP snapPReq = ["svc"] from rfl] at hn
      rcases List.mem_singleton.mp hn with rfl
      rw [show (svcOf snapP "svc").fields.map Prod.fst = ["port"] from rfl] at hfn
      rcases List.mem_singleton.mp hfn with rfl
      exact ⟨rfl, rfl⟩)

/-! ## Lemmas about the dependency resolver (Kahn sort) -/

theorem fupd_self {β : Type} (f : String → β) (k : String) (v : β) : fupd f k v k = v := by
  simp [fupd]

theorem fupd_other {β : Type} (f : String → β) (k : String) (v : β) {x : String}
    (h : x ≠ k) : fupd f k v x = f x := by
  simp [fupd, h]

theorem relaxAll_indeg (deps : List String) (indeg : String → Int) (q : List String)
    (x : String) :
    (relaxAll deps indeg q).1 x = indeg x - (deps.count x : Int) := by
  induction deps generalizing indeg q with
  | nil => simp [relaxAll]
  | cons d rest ih =>
    rw [show relaxAll (d :: rest) indeg q
        = relaxAll rest (fupd indeg d (indeg d - 1))
            (if indeg d - 1 = 0 then q ++ [d] else q) from rfl, ih]
    by_cases hx : x = d
    · subst hx
      rw [fupd_self, List.count_cons_self]
      push_cast
      ring
    · rw [fupd_other _ _ _ hx, List.count_cons_of_ne hx]

theorem relaxAll_queue_count (deps : List String) (indeg : String → Int) (q : List String)
    (x : String) :
    ((relaxAll deps indeg q).2).count x
      = q.count x + (if 0 < indeg x ∧ indeg x ≤ (deps.count x : Int) then 1 else 0) := by
  induction deps generalizing indeg q with
  | nil =>
    rw [show relaxAll [] indeg q = (indeg, q) from rfl]
    simp only [List.count_nil, Nat.cast_zero]
    rw [if_neg (by omega)]
    omega
  | cons d rest ih =>
    rw [show relaxAll (d :: rest) indeg q
        = relaxAll rest (fupd indeg d (indeg d - 1))
            (if indeg d - 1 = 0 then q ++ [d] else q) from rfl, ih]
    by_cases hx : x = d
    · subst hx
      rw [fupd_self, List.count_cons_self]
      by_cases hz : indeg x - 1 = 0
      · have h1 : ([x].count x) = 1 := by simp
        rw [if_pos hz, List.count_append, h1]
        split_ifs <;> omega
      · rw [if_neg hz]
        split_ifs <;> omega
    · rw [fupd_other _ _ _ hx, List.count_cons_of_ne hx]
      by_cases hz : indeg d - 1 = 0
      · rw [if_pos hz, List.count_append]
        have : ([d].count x) = 0 := by
          simp [List.count_singleton', hx]
        rw [this, Nat.add_zero]
      · rw [if_neg hz]

theorem relaxAll_queue_sub (deps : List String) (indeg : String → Int) (q : List String)
    {x : String} (hx : x ∈ (relaxAll deps indeg q).2) : x ∈ q ∨ x ∈ deps := by
  have hc := relaxAll_queue_count deps indeg q x
  have hp : 0 < ((relaxAll deps indeg q).2).count x := List.count_pos_iff_mem.mpr hx
  by_cases hq : x ∈ q
  · exact Or.inl hq
  · have hq0 : q.count x = 0 := by
      rw [List.count_eq_zero]
      exact hq
    rw [hc, hq0, Nat.zero_add] at hp
    refine Or.inr ?_
    by_contra hd
    have hd0 : deps.count x = 0 := by
      rw [List.count_eq_zero]
      exact hd
    rw [hd0] at hp
    simp only [Nat.cast_zero] at hp
    split_ifs at hp with hcond
    · omega
    · omega

theorem inner_fold_graph (enabled : List String) (sName : String) (deps : List String)
    (acc : (String → List String) × (String → Int)) (d : String) :
    ((deps.foldl (fun acc2 dep => addEdge enabled sName dep acc2) acc).1) d
      = acc.1 d ++ (if d ∈ enabled then List.replicate (deps.count d) sName else []) := by
  induction deps generalizing acc with
  | nil => simp
  | cons dep rest ih =>
    rw [List.foldl_cons, ih]
    by_cases he : dep ∈ enabled
    · simp only [addEdge, if_pos he]
      by_cases hd : d = dep
      · subst hd
        show fupd acc.1 d (acc.1 d ++ [sName]) d ++ _ = _
        rw [fupd_self, if_pos he, if_pos he, List.count_cons_self, List.append_assoc]
        congr 1
      · show fupd acc.1 dep (acc.1 dep ++ [sName]) d ++ _ = _
        rw [fupd_other _ _ _ hd, List.count_cons_of_ne hd]
    · simp only [addEdge, if_neg he]
      by_cases hd : d = dep
      · subst hd
        rw [if_neg he, if_neg he]
      · rw [List.count_cons_of_ne hd]

theorem inner_fold_indeg (enabled : List String) (sName : String) (deps : List String)
    (acc : (String → List String) × (String → Int)) (s : String) :
    ((deps.foldl (fun acc2 dep => addEdge enabled sName dep acc2) acc).2) s
      = acc.2 s + (if s = sName
          then (deps.countP (fun d => decide (d ∈ enabled)) : Int) else 0) := by
  induction deps generalizing acc with
  | nil => simp
  | cons dep rest ih =>
    rw [List.foldl_cons, ih, List.countP_cons]
    by_cases he : dep ∈ enabled
    · simp only [addEdge, if_pos he]
      by_cases hs : s = sName
      · subst hs
        show fupd acc.2 s (acc.2 s + 1) s + _ = _
        rw [fupd_self, if_pos rfl, if_pos rfl]
        simp [he]
        push_cast
        ring
      · show fupd acc.2 sName (acc.2 sName + 1) s + _ = _
        rw [fupd_other _ _ _ hs, if_neg hs, if_neg hs]
    · simp only [addEdge, if_neg he]
      by_cases hs : s = sName
      · subst hs
        rw [if_pos rfl, if_pos rfl]
        simp [he]
      · rw [if_neg hs, if_neg hs]

theorem outer_fold_graph (services : Services) (enabled : List String) (l : List String)
    (acc : (String → List String) × (String → Int)) (d : String) :
    ((l.foldl (fun acc1 sName =>
        (requiresOf services sName).foldl
          (fun acc2 dep => addEdge enabled sName dep acc2) acc1) acc).1) d
      = acc.1 d ++ l.bind (fun sName =>
          if d ∈ enabled
          then List.replicate ((requiresOf services sName).count d) sName else []) := by
  induction l generalizing acc with
  | nil => simp
  | cons s rest ih =>
    rw [List.foldl_cons, ih, inner_fold_graph]
    simp [List.append_assoc]

theorem outer_fold_indeg (services : Services) (enabled : List String) (l : List String)
    (acc : (String → List String) × (String → Int)) (s : String) :
    ((l.foldl (fun acc1 sName =>
        (requiresOf services sName).foldl
          (fun acc2 dep => addEdge enabled sName dep acc2) acc1) acc).2) s
      = acc.2 s + (l.count s : Int)
          * ((requiresOf services s).countP (fun d => decide (d ∈ enabled)) : Int) := by
  induction l generalizing acc with
  | nil => simp
  | cons s0 rest ih =>
    rw [List.foldl_cons, ih, inner_fold_indeg]
    by_cases hs : s = s0
    · subst hs
      rw [if_pos rfl, List.count_cons_self]
      push_cast
      ring
    · rw [if_neg hs, List.count_cons_of_ne hs]
      ring

theorem buildGraph_fst (services : Services) (enabled : List String) (d : String) :
    (buildGraph services enabled).1 d
      = enabled.bind (fun sName =>
          if d ∈ enabled
          then List.replicate ((requiresOf services sName).count d) sName else []) := by
  unfold buildGraph
  rw [outer_fold_graph]
  rfl

theorem buildGraph_snd (services : Services) (enabled : List String) (s : String) :
    (buildGraph services enabled).2 s
      = (enabled.count s : Int)
          * ((requiresOf services s).countP (fun d => decide (d ∈ enabled)) : Int) := by
  unfold buildGraph
  rw [outer_fold_indeg]
  push_cast
  ring

theorem sum_single_nodup (f : String → Nat) (l : List String) (hnd : l.Nodup) (x : String) :
    (l.map (fun s => if x = s then f s else 0)).sum = if x ∈ l then f x else 0 := by
  induction l with
  | nil => simp
  | cons s rest ih =>
    rw [List.nodup_cons] at hnd
    rw [List.map_cons, List.sum_cons, ih hnd.2]
    by_cases hx : x = s
    · subst hx
      rw [if_pos rfl, if_neg hnd.1, if_pos (List.mem_cons_self _ _)]
      omega
    · rw [if_neg hx]
      by_cases hm : x ∈ rest
      · rw [if_pos hm, if_pos (List.mem_cons_of_mem _ hm)]
        omega
      · rw [if_neg hm, if_neg (by rw [List.mem_cons]; tauto)]

theorem graph_count (services : Services) (enabled : List String) (hnd : enabled.Nodup)
    (d x : String) :
    ((buildGraph services enabled).1 d).count x
      = if d ∈ enabled ∧ x ∈ enabled then (requiresOf services x).count d else 0 := by
  rw [buildGraph_fst]
  by_cases hd : d ∈ enabled
  · have hfun : (List.count x ∘ fun sName =>
        if d ∈ enabled
        then List.replicate ((requiresOf services sName).count d) sName else [])
        = fun sName => if x = sName then (requiresOf services sName).count d else 0 := by
      funext sName
      show List.count x (if d ∈ enabled
        then List.replicate ((requiresOf services sName).count d) sName else []) = _
      rw [if_pos hd, List.count_replicate]
      by_cases hxx : x = sName
      · subst hxx
        simp
      · simp [hxx, Ne.symm hxx]
    rw [List.count_bind, hfun, sum_single_nodup _ _ hnd]
    by_cases hx : x ∈ enabled
    · rw [if_pos hx, if_pos ⟨hd, hx⟩]
    · rw [if_neg hx, if_neg (by tauto)]
  · have : enabled.bind (fun sName =>
        if d ∈ enabled
        then List.replicate ((requiresOf services sName).count d) sName else []) = [] := by
      rw [List.bind_eq_nil_iff]
      intro sName _
      rw [if_neg hd]
    rw [this, if_neg (by tauto)]
    rfl

theorem graph_mem {services : Services} {enabled : List String} {d x : String}
    (hx : x ∈ (buildGraph services enabled).1 d) :
    x ∈ enabled ∧ d ∈ enabled ∧ d ∈ requiresOf services x := by
  rw [buildGraph_fst] at hx
  obtain ⟨s, hs, hblock⟩ := List.mem_bind.mp hx
  by_cases hd : d ∈ enabled
  · rw [if_pos hd] at hblock
    have hxs : x = s := List.eq_of_mem_replicate hblock
    have hcnt : 0 < (requiresOf services s).count d := by
      by_contra hc
      push_neg at hc
      have hz : (requiresOf services s).count d = 0 := by omega
      rw [hz] at hblock
      cases hblock
    subst hxs
    exact ⟨hs, hd, List.count_pos_iff_mem.mp hcnt⟩
  · rw [if_neg hd] at hblock
    cases hblock

theorem countP_remove_one (req : List String) (enabled sorted : List String) (s : String)
    (hs : s ∈ enabled) (hns : s ∉ sorted) :
    req.countP (fun d => decide (d ∈ enabled ∧ d ∉ sorted))
      = req.countP (fun d => decide (d ∈ enabled ∧ d ∉ sorted ++ [s])) + req.count s := by
  induction req with
  | nil => rfl
  | cons d rest ih =>
    rw [List.countP_cons, List.countP_cons, List.count_cons]
    by_cases hd : d = s
    · subst hd
      rw [decide_eq_true (show d ∈ enabled ∧ d ∉ sorted from ⟨hs, hns⟩),
        decide_eq_false (show ¬(d ∈ enabled ∧ d ∉ sorted ++ [d]) from
          fun h => h.2 (List.mem_append.mpr (Or.inr (List.mem_singleton_self d)))),
        beq_self_eq_true, ih]
      have h1 : (if (true = true) then (1 : Nat) else 0) = 1 := rfl
      have h0 : (if (false = true) then (1 : Nat) else 0) = 0 := rfl
      rw [h1, h0]
      omega
    · have hiff : (d ∈ enabled ∧ d ∉ sorted ++ [s]) ↔ (d ∈ enabled ∧ d ∉ sorted) := by
        constructor
        · rintro ⟨h1, h2⟩
          exact ⟨h1, fun hm => h2 (List.mem_append.mpr (Or.inl hm))⟩
        · rintro ⟨h1, h2⟩
          refine ⟨h1, fun hm => ?_⟩
          rcases List.mem_append.mp hm with hm | hm
          · exact h2 hm
          · exact hd (List.mem_singleton.mp hm)
      rw [decide_eq_decide.mpr hiff, ih, beq_eq_false_iff_ne.mpr hd]
      have h0 : (if (false = true) then (1 : Nat) else 0) = 0 := rfl
      rw [h0]
      omega

theorem indeg_init_of_mem {services : Services} {enabled : List String} (hnd : enabled.Nodup)
    {s : String} (hs : s ∈ enabled) :
    (buildGraph services enabled).2 s
      = ((requiresOf services s).countP (fun d => decide (d ∈ enabled)) : Int) := by
  rw [buildGraph_snd, List.count_eq_one_of_mem hnd hs]
  simp

theorem nodup_count_le_one {l : List String} (h : l.Nodup) (x : String) : l.count x ≤ 1 :=
  List.nodup_iff_count_le_one.mp h x

theorem count_singleton_cases (a b : String) : [b].count a = if a = b then 1 else 0 := by
  by_cases h : a = b
  · subst h; simp
  · simp [h]

theorem count_cons_general (a b : String) (l : List String) :
    (b :: l).count a = l.count a + (if a = b then 1 else 0) := by
  by_cases h : a = b
  · subst h
    rw [List.count_cons_self, if_pos rfl]
  · rw [List.count_cons_of_ne h, if_neg h]
    omega

theorem kahn_step (services : Services) (enabled : List String) (hnd : enabled.Nodup)
    {s : String} {q : List String} {indeg : String → Int} {sorted : List String}
    (inv : KahnInv services enabled (s :: q) indeg sorted) :
    KahnInv services enabled
      (relaxAll ((buildGraph services enabled).1 s) indeg q).2
      (relaxAll ((buildGraph services enabled).1 s) indeg q).1
      (sorted ++ [s]) := by
  have hsmem : s ∈ enabled := inv.qsub s (List.mem_cons_self _ _)
  have hnodup_split := List.nodup_append.mp inv.nodup
  have hsns : s ∉ sorted := fun hm => hnodup_split.2.2 hm (List.mem_cons_self _ _)
  have hsq : s ∉ q := by
    have := hnodup_split.2.1
    rw [List.nodup_cons] at this
    exact this.1
  have hGcount : ∀ x, ((buildGraph services enabled).1 s).count x
      = if x ∈ enabled then (requiresOf services x).count s else 0 := by
    intro x
    rw [graph_count services enabled hnd s x]
    by_cases hx : x ∈ enabled
    · rw [if_pos ⟨hsmem, hx⟩, if_pos hx]
    · rw [if_neg (by tauto), if_neg hx]
  have hdeg' : ∀ x ∈ enabled,
      (relaxAll ((buildGraph services enabled).1 s) indeg q).1 x
        = ((requiresOf services x).countP
            (fun d => decide (d ∈ enabled ∧ d ∉ sorted ++ [s])) : Int) := by
    intro x hx
    rw [relaxAll_indeg, inv.deg x hx, hGcount x, if_pos hx,
      countP_remove_one (requiresOf services x) enabled sorted s hsmem hsns]
    push_cast
    ring
  have hcountP_sorted_zero : ∀ x, (∀ d ∈ requiresOf services x, d ∈ enabled → d ∈ sorted) →
      (requiresOf services x).countP (fun d => decide (d ∈ enabled ∧ d ∉ sorted)) = 0 := by
    intro x hx
    rw [List.countP_eq_zero]
    intro d hd
    simp only [decide_eq_true_eq]
    rintro ⟨h1, h2⟩
    exact h2 (hx d hd h1)
  have hq_indeg_zero : ∀ x ∈ s :: q, x ∈ enabled → indeg x = 0 := by
    intro x hx hxe
    rw [inv.deg x hxe, hcountP_sorted_zero x (inv.qdone x hx)]
    rfl
  have hsorted_indeg_zero : ∀ x ∈ sorted, x ∈ enabled → indeg x = 0 := by
    intro x hx hxe
    rw [inv.deg x hxe]
    rw [hcountP_sorted_zero x ?_]
    · rfl
    · intro d hd hde
      have := inv.sordered x hx d hd hde
      exact this.subset (by simp)
  have hnew_not_old : ∀ x, 0 < indeg x → indeg x ≤ (((buildGraph services enabled).1 s).count x : Int) →
      x ∈ enabled ∧ x ∉ sorted ∧ x ≠ s ∧ x ∉ q := by
    intro x hpos hle
    have hxe : x ∈ enabled := by
      by_contra hxe
      rw [hGcount x, if_neg hxe] at hle
      simp at hle
      omega
    refine ⟨hxe, ?_, ?_, ?_⟩
    · intro hm
      rw [hsorted_indeg_zero x hm hxe] at hpos
      omega
    · rintro rfl
      rw [hq_indeg_zero x (List.mem_cons_self _ _) hxe] at hpos
      omega
    · intro hm
      rw [hq_indeg_zero x (List.mem_cons_of_mem _ hm) hxe] at hpos
      omega
  refine ⟨?_, ?_, ?_, hdeg', ?_, ?_, ?_⟩
  · -- nodup
    rw [List.nodup_iff_count_le_one]
    intro x
    have hold := List.nodup_iff_count_le_one.mp inv.nodup x
    rw [List.count_append, count_cons_general] at hold
    rw [List.count_append, List.count_append, count_singleton_cases, relaxAll_queue_count]
    by_cases hxx : x = s
    · subst hxx
      rw [if_pos rfl] at hold
      rw [if_pos rfl]
      have hz := hq_indeg_zero x (List.mem_cons_self _ _) hsmem
      rw [if_neg (by omega)]
      omega
    · rw [if_neg hxx] at hold
      rw [if_neg hxx]
      split_ifs with hcond
      · obtain ⟨hxe, hxs, hxns, hxq⟩ := hnew_not_old x hcond.1 hcond.2
        have h1 : sorted.count x = 0 := List.count_eq_zero.mpr hxs
        have h2 : q.count x = 0 := List.count_eq_zero.mpr hxq
        omega
      · omega
  · -- ssub
    intro x hx
    rcases List.mem_append.mp hx with hx | hx
    · exact inv.ssub x hx
    · rw [List.mem_singleton.mp hx]
      exact hsmem
  · -- qsub
    intro x hx
    rcases relaxAll_queue_sub _ _ _ hx with hx | hx
    · exact inv.qsub x (List.mem_cons_of_mem _ hx)
    · exact (graph_mem hx).1
  · -- qdone
    intro x hx d hd hde
    have hcnt := relaxAll_queue_count ((buildGraph services enabled).1 s) indeg q x
    have hpos : 0 < ((relaxAll ((buildGraph services enabled).1 s) indeg q).2).count x :=
      List.count_pos_iff_mem.mpr hx
    by_cases hxq : x ∈ q
    · exact List.mem_append.mpr (Or.inl (inv.qdone x (List.mem_cons_of_mem _ hxq) d hd hde))
    · have hq0 : q.count x = 0 := List.count_eq_zero.mpr hxq
      rw [hcnt, hq0, Nat.zero_add] at hpos
      have hcond : 0 < indeg x ∧ indeg x
          ≤ ((((buildGraph services enabled).1 s).count x : Nat) : Int) := by
        by_contra hc
        rw [if_neg hc] at hpos
        omega
      obtain ⟨hxe, _, _, _⟩ := hnew_not_old x hcond.1 hcond.2
      have hfinal : (relaxAll ((buildGraph services enabled).1 s) indeg q).1 x = 0 := by
        have hge : (0 : Int) ≤ ((requiresOf services x).countP
            (fun d => decide (d ∈ enabled ∧ d ∉ sorted ++ [s])) : Int) := by positivity
        have hle2 := hdeg' x hxe
        rw [relaxAll_indeg] at hle2 ⊢
        omega
      rw [hdeg' x hxe] at hfinal
      have hz : (requiresOf services x).countP
          (fun d => decide (d ∈ enabled ∧ d ∉ sorted ++ [s])) = 0 := by
        omega
      rw [List.countP_eq_zero] at hz
      have := hz d hd
      simp only [decide_eq_true_eq] at this
      by_contra hds
      exact this ⟨hde, hds⟩
  · -- sordered
    intro x hx d hd hde
    rcases List.mem_append.mp hx with hx | hx
    · exact (inv.sordered x hx d hd hde).trans (List.sublist_append_left _ _)
    · have hxs := List.mem_singleton.mp hx
      subst hxs
      have hds : d ∈ sorted := inv.qdone x (List.mem_cons_self _ _) d hd hde
      have h1 : [d].Sublist sorted := List.singleton_sublist.mpr hds
      exact h1.append (List.Sublist.refl _)
  · -- zmem
    intro x hxe hz
    rw [relaxAll_indeg] at hz
    rcases lt_trichotomy (indeg x) 0 with hlt | heq | hgt
    · exfalso
      have : (0 : Int) ≤ (((buildGraph services enabled).1 s).count x : Int) := by positivity
      omega
    · rcases inv.zmem x hxe heq with hm | hm
      · exact Or.inl (List.mem_append.mpr (Or.inl hm))
      · rcases List.mem_cons.mp hm with rfl | hm
        · exact Or.inl (List.mem_append.mpr (Or.inr (List.mem_singleton_self _)))
        · refine Or.inr ?_
          rw [← List.count_pos_iff_mem, relaxAll_queue_count]
          have : 0 < q.count x := List.count_pos_iff_mem.mpr hm
          omega
    · refine Or.inr ?_
      rw [← List.count_pos_iff_mem, relaxAll_queue_count]
      have hcond : 0 < indeg x ∧ indeg x
          ≤ ((((buildGraph services enabled).1 s).count x : Nat) : Int) := ⟨hgt, by omega⟩
      rw [if_pos hcond]
      omega

/-- Along a requires-chain inside `S`, a rank function that drops across every
edge drops from the head to the last element. -/
theorem chain_rank_lt (services : Services) (S : List String) (rank : String → Nat)
    (hrank : ∀ a ∈ S, ∀ b ∈ requiresOf services a, b ∈ S → rank b < rank a) :
    ∀ p : List String, p.Chain' (reqStep services) → (∀ x ∈ p, x ∈ S) →
      ∀ a b, p.head? = some a → p.getLast? = some b → 2 ≤ p.length → rank b < rank a := by
  intro p
  induction p with
  | nil =>
    intro _ _ a b ha
    simp at ha
  | cons x rest ih =>
    intro hch hmem a b ha hb hlen
    rcases rest with _ | ⟨y, rest'⟩
    · simp at hlen
    · have hxa : a = x := by simpa using ha.symm
      subst hxa
      rw [List.chain'_cons] at hch
      have hxy : rank y < rank a :=
        hrank a (hmem a (List.mem_cons_self _ _)) y hch.1
          (hmem y (List.mem_cons.mpr (Or.inr (List.mem_cons_self _ _))))
      rcases rest' with _ | ⟨z, rest''⟩
      · have hby : y = b := by simpa using hb
        exact hby ▸ hxy
      · have hb' : (y :: z :: rest'').getLast? = some b := by
          rw [List.getLast?_cons_cons] at hb
          exact hb
        have hlt := ih hch.2 (fun w hw => hmem w (List.mem_cons.mpr (Or.inr hw))) y b rfl hb'
          (by simp only [List.length_cons]; omega)
        omega

/-- A rank function that strictly drops across every requires-edge inside `S`
certifies acyclicity of the restricted graph. -/
theorem acyclic_of_rank (services : Services) (S : List String) (rank : String → Nat)
    (hrank : ∀ a ∈ S, ∀ b ∈ requiresOf services a, b ∈ S → rank b < rank a) :
    AcyclicIn services S := by
  rintro ⟨p, hlen, hch, hcl, hmem⟩
  rcases p with _ | ⟨x, rest⟩
  · simp at hlen
  · have ha : (x :: rest).head? = some x := rfl
    have hb : (x :: rest).getLast? = some x := by
      rw [← hcl]
      exact ha
    exact absurd (chain_rank_lt services S rank hrank (x :: rest) hch hmem x x ha hb hlen)
      (lt_irrefl _)

/-- If every node of a nonempty set `S` has a requires-successor inside `S`,
the restricted graph carries a closed walk (pigeonhole on an infinite
successor path). -/
theorem exists_closed_walk_of_all_step (services : Services) (S : List String)
    (x0 : String) (hx0 : x0 ∈ S)
    (hstep : ∀ x ∈ S, ∃ y, y ∈ S ∧ reqStep services x y) :
    ∃ p, IsClosedWalkIn services S p := by
  have hstep' : ∀ x : {a : String // a ∈ S}, ∃ y : {a : String // a ∈ S},
      reqStep services x.1 y.1 := by
    rintro ⟨x, hx⟩
    obtain ⟨y, hy, hr⟩ := hstep x hx
    exact ⟨⟨y, hy⟩, hr⟩
  choose g hg using hstep'
  set seq : Nat → {a : String // a ∈ S} := fun n => g^[n] ⟨x0, hx0⟩ with hseq
  have hsucc : ∀ n, seq (n + 1) = g (seq n) := by
    intro n
    simp only [hseq]
    exact Function.iterate_succ_apply' g n _
  have hstepn : ∀ n, reqStep services (seq n).1 (seq (n + 1)).1 := by
    intro n
    rw [hsucc n]
    exact hg (seq n)
  have key : ∀ m n : Nat, m < n → (seq m).1 = (seq n).1 →
      ∃ p, IsClosedWalkIn services S p := by
    intro m n hlt hfeq
    refine ⟨(List.range (n - m + 1)).map (fun k => (seq (m + k)).1), ?_, ?_, ?_, ?_⟩
    · rw [List.length_map, List.length_range]
      omega
    · rw [List.chain'_map, List.chain'_range_succ]
      intro k _
      show reqStep services ((seq (m + k)).1) ((seq (m + (k + 1))).1)
      rw [show m + (k + 1) = m + k + 1 from by omega]
      exact hstepn (m + k)
    · have hh : ((List.range (n - m + 1)).map (fun k => (seq (m + k)).1)).head?
          = some ((seq m).1) := by
        rw [List.range_succ_eq_map]
        simp
      have hl : ((List.range (n - m + 1)).map (fun k => (seq (m + k)).1)).getLast?
          = some ((seq (m + (n - m))).1) := by
        rw [List.range_succ, List.map_append]
        simp
      rw [hh, hl, show m + (n - m) = n from by omega, ← hfeq]
    · intro x hx
      rw [List.mem_map] at hx
      obtain ⟨k, _, rfl⟩ := hx
      exact (seq (m + k)).2
  have hcard : S.toFinset.card < (Finset.range (S.toFinset.card + 1)).card := by
    rw [Finset.card_range]
    omega
  have hmaps : ∀ n ∈ Finset.range (S.toFinset.card + 1), (seq n).1 ∈ S.toFinset :=
    fun n _ => List.mem_toFinset.mpr (seq n).2
  obtain ⟨i, _, j, _, hij, heq⟩ := Finset.exists_ne_map_eq_of_card_lt_of_maps_to hcard hmaps
  rcases Nat.lt_or_ge i j with hlt | hge
  · exact key i j hlt heq
  · exact key j i (by omega) heq.symm

/-- A duplicate-free list contained in a duplicate-free list of no greater
length has the same members. -/
theorem mem_iff_of_nodup_subset_length {l₁ l₂ : List String} (h₁ : l₁.Nodup) (h₂ : l₂.Nodup)
    (hsub : ∀ x ∈ l₁, x ∈ l₂) (hlen : l₂.length ≤ l₁.length) : ∀ x, x ∈ l₁ ↔ x ∈ l₂ := by
  have hfs : l₁.toFinset ⊆ l₂.toFinset := fun x hx =>
    List.mem_toFinset.mpr (hsub x (List.mem_toFinset.mp hx))
  have hc₁ : l₁.toFinset.card = l₁.length := List.toFinset_card_of_nodup h₁
  have hc₂ : l₂.toFinset.card = l₂.length := List.toFinset_card_of_nodup h₂
  have heq : l₁.toFinset = l₂.toFinset := Finset.eq_of_subset_of_card_le hfs (by omega)
  intro x
  constructor
  · exact hsub x
  · intro hx
    have hx₁ : x ∈ l₁.toFinset := heq ▸ List.mem_toFinset.mpr hx
    exact List.mem_toFinset.mp hx₁

/-- When the Kahn queue is empty, acyclicity forces the emitted prefix to
cover the whole enabled set: otherwise the unemitted remainder would carry a
closed walk. -/
theorem kahn_stuck (services : Services) (enabled : List String)
    (hac : AcyclicIn services enabled) {indeg : String → Int} {sorted : List String}
    (inv : KahnInv services enabled [] indeg sorted) : ∀ x ∈ enabled, x ∈ sorted := by
  by_contra hc
  push_neg at hc
  obtain ⟨x0, hx0e, hx0s⟩ := hc
  set R := enabled.filter (fun a => decide (a ∉ sorted)) with hR
  have hmemR : ∀ a, a ∈ R ↔ a ∈ enabled ∧ a ∉ sorted := by
    intro a
    rw [hR, List.mem_filter]
    simp
  have hx0R : x0 ∈ R := (hmemR x0).mpr ⟨hx0e, hx0s⟩
  have hstep : ∀ a ∈ R, ∃ b, b ∈ R ∧ reqStep services a b := by
    intro a haR
    obtain ⟨hae, has⟩ := (hmemR a).mp haR
    have hnz : indeg a ≠ 0 := by
      intro hz
      rcases inv.zmem a hae hz with hm | hm
      · exact has hm
      · simp at hm
    rw [inv.deg a hae] at hnz
    have hpos : 0 < (requiresOf services a).countP
        (fun d => decide (d ∈ enabled ∧ d ∉ sorted)) := by
      rcases Nat.eq_zero_or_pos ((requiresOf services a).countP
        (fun d => decide (d ∈ enabled ∧ d ∉ sorted))) with h0 | hgt
      · rw [h0] at hnz
        simp at hnz
      · exact hgt
    obtain ⟨d, hd, hdp⟩ := List.countP_pos.mp hpos
    simp only [decide_eq_true_eq] at hdp
    exact ⟨d, (hmemR d).mpr hdp, hd⟩
  obtain ⟨p, hp⟩ := exists_closed_walk_of_all_step services R x0 hx0R hstep
  obtain ⟨h1, h2, h3, h4⟩ := hp
  exact hac ⟨p, h1, h2, h3, fun x hx => ((hmemR x).mp (h4 x hx)).1⟩

/-- Post-condition of the Kahn loop under acyclicity: with enough fuel the
output is duplicate-free, has exactly the enabled services as members, and
lists every enabled dependency strictly before its dependent. -/
theorem kahnLoop_post (services : Services) (enabled : List String)
    (hnd : enabled.Nodup) (hac : AcyclicIn services enabled) :
    ∀ (fuel : Nat) (q : List String) (indeg : String → Int) (sorted : List String),
      KahnInv services enabled q indeg sorted →
      enabled.length ≤ fuel + sorted.length →
      (kahnLoop (buildGraph services enabled).1 fuel q indeg sorted).Nodup ∧
      (∀ x, x ∈ kahnLoop (buildGraph services enabled).1 fuel q indeg sorted ↔ x ∈ enabled) ∧
      (∀ x ∈ enabled, ∀ d ∈ requiresOf services x, d ∈ enabled →
        [d, x].Sublist (kahnLoop (buildGraph services enabled).1 fuel q indeg sorted)) := by
  intro fuel
  induction fuel with
  | zero =>
    intro q indeg sorted inv hlen
    have hsnodup : sorted.Nodup := (List.nodup_append.mp inv.nodup).1
    have hiff : ∀ x, x ∈ sorted ↔ x ∈ enabled :=
      mem_iff_of_nodup_subset_length hsnodup hnd inv.ssub (by omega)
    exact ⟨hsnodup, hiff,
      fun x hx d hd hde => inv.sordered x ((hiff x).mpr hx) d hd hde⟩
  | succ fuel ih =>
    intro q indeg sorted inv hlen
    rcases q with _ | ⟨s, q'⟩
    · have hsnodup : sorted.Nodup := (List.nodup_append.mp inv.nodup).1
      have hsup := kahn_stuck services enabled hac inv
      have hiff : ∀ x, x ∈ sorted ↔ x ∈ enabled := fun x => ⟨inv.ssub x, hsup x⟩
      exact ⟨hsnodup, hiff,
        fun x hx d hd hde => inv.sordered x (hsup x hx) d hd hde⟩
    · have hred : kahnLoop (buildGraph services enabled).1 (fuel + 1) (s :: q') indeg sorted
          = kahnLoop (buildGraph services enabled).1 fuel
              (relaxAll ((buildGraph services enabled).1 s) indeg q').2
              (relaxAll ((buildGraph services enabled).1 s) indeg q').1
              (sorted ++ [s]) := rfl
      rw [hred]
      exact ih _ _ _ (kahn_step services enabled hnd inv)
        (by simp only [List.length_append, List.length_singleton]; omega)

/-- The state entering the Kahn loop — queue of indegree-zero enabled
services in iteration order, initial indegree table, empty output — satisfies
the loop invariant. -/
theorem kahn_init (services : Services) (enabled : List String) (hnd : enabled.Nodup) :
    KahnInv services enabled
      (enabled.filter (fun s => (buildGraph services enabled).2 s == 0))
      (buildGraph services enabled).2 [] := by
  refine ⟨?_, ?_, ?_, ?_, ?_, ?_, ?_⟩
  · rw [List.nil_append]
    exact hnd.filter _
  · intro x hx
    simp at hx
  · intro x hx
    exact (List.mem_filter.mp hx).1
  · intro s hs
    rw [indeg_init_of_mem hnd hs]
    congr 1
    apply List.countP_congr
    intro d _
    simp
  · intro s hs d hd hde
    exfalso
    have hz : ((buildGraph services enabled).2 s == 0) = true := by
      simpa using (List.mem_filter.mp hs).2
    rw [beq_iff_eq, indeg_init_of_mem hnd (List.mem_filter.mp hs).1] at hz
    have hcount : (requiresOf services s).countP (fun d => decide (d ∈ enabled)) = 0 := by
      exact_mod_cast hz
    rw [List.countP_eq_zero] at hcount
    have hnd2 := hcount d hd
    simp only [decide_eq_true_eq] at hnd2
    exact hnd2 hde
  · intro x hx
    simp at hx
  · intro x hxe hz
    refine Or.inr (List.mem_filter.mpr ⟨hxe, ?_⟩)
    simp only [beq_iff_eq]
    exact hz

/-- **C4.** For a duplicate-free enabled set whose services all exist and
whose restricted requires-graph is acyclic, `topological_sort` succeeds, the
output has exactly the enabled services as members (duplicate-free), and
every enabled dependency appears strictly before each of its dependents. -/
theorem c4_topological_sort_order (services : Services) (enabled : List String)
    (hnd : enabled.Nodup) (hall : ∀ s ∈ enabled, (alookup s services).isSome)
    (hac : AcyclicIn services enabled) :
    ∃ out, topological_sort services enabled = some out ∧ out.Nodup ∧
      (∀ x, x ∈ out ↔ x ∈ enabled) ∧
      ∀ s ∈ enabled, ∀ d ∈ requiresOf services s, d ∈ enabled → [d, s].Sublist out := by
  obtain ⟨hnodup, hiff, horder⟩ := kahnLoop_post services enabled hnd hac
    (enabled.length + 1)
    (enabled.filter (fun s => (buildGraph services enabled).2 s == 0))
    (buildGraph services enabled).2 []
    (kahn_init services enabled hnd) (by simp)
  set out := kahnLoop (buildGraph services enabled).1 (enabled.length + 1)
      (enabled.filter (fun s => (buildGraph services enabled).2 s == 0))
      (buildGraph services enabled).2 [] with hout
  have hperm : out.Perm enabled := (List.perm_ext_iff_of_nodup hnodup hnd).mpr hiff
  have hlen : out.length = enabled.length := hperm.length_eq
  have hcond : enabled.all (fun s => (alookup s services).isSome) = true := by
    rw [List.all_eq_true]
    intro s hs
    simpa using hall s hs
  refine ⟨out, ?_, hnodup, hiff, horder⟩
  have hts : topological_sort services enabled
      = if out.length = enabled.length then some out else none := by
    unfold topological_sort
    rw [if_pos hcond]
  rw [hts, if_pos hlen]

/-- C4 witness: scenario S1 (`ui` requires `db`, both enabled, iteration
order `ui, db`). -/
theorem c4_witness :
    ∃ out, topological_sort uiDbSvcs ["ui", "db"] = some out ∧ out.Nodup ∧
      (∀ x, x ∈ out ↔ x ∈ ["ui", "db"]) ∧
      ∀ s ∈ ["ui", "db"], ∀ d ∈ requiresOf uiDbSvcs s, d ∈ ["ui", "db"] →
        [d, s].Sublist out :=
  c4_topological_sort_order uiDbSvcs ["ui", "db"] (by decide) (by decide)
    (acyclic_of_rank uiDbSvcs ["ui", "db"] (fun s => if s = "ui" then 1 else 0) (by decide))

/-- The Kahn loop over an edgeless graph drains the queue in FIFO order,
appending it verbatim to the emitted prefix. -/
theorem kahnLoop_nil_graph :
    ∀ (fuel : Nat) (q : List String) (indeg : String → Int) (sorted : List String),
      q.length ≤ fuel →
      kahnLoop (fun _ => []) fuel q indeg sorted = sorted ++ q := by
  intro fuel
  induction fuel with
  | zero =>
    intro q indeg sorted hq
    rcases q with _ | ⟨s, q'⟩
    · rw [List.append_nil]
      rfl
    · simp only [List.length_cons] at hq
      omega
  | succ fuel ih =>
    intro q indeg sorted hq
    rcases q with _ | ⟨s, q'⟩
    · rw [List.append_nil]
      rfl
    · have hred : kahnLoop (fun _ => ([] : List String)) (fuel + 1) (s :: q') indeg sorted
          = kahnLoop (fun _ => []) fuel q' indeg (sorted ++ [s]) := rfl
      rw [hred, ih q' indeg (sorted ++ [s])
        (by simp only [List.length_cons] at hq; omega)]
      simp

/-- When no enabled service requires another enabled service, the built graph
has no adjacency entries and every enabled service has indegree zero. -/
theorem buildGraph_no_edges (services : Services) (enabled : List String)
    (hnoedge : ∀ s ∈ enabled, ∀ d ∈ requiresOf services s, d ∉ enabled) :
    (∀ d, (buildGraph services enabled).1 d = []) ∧
    (∀ s ∈ enabled, (buildGraph services enabled).2 s = 0) := by
  constructor
  · intro d
    rw [List.eq_nil_iff_forall_not_mem]
    intro x hx
    obtain ⟨hxe, hde, hdr⟩ := graph_mem hx
    exact hnoedge x hxe d hdr hde
  · intro s hs
    rw [buildGraph_snd]
    have h0 : (requiresOf services s).countP (fun d => decide (d ∈ enabled)) = 0 := by
      rw [List.countP_eq_zero]
      intro d hd
      simpa using hnoedge s hs d hd
    rw [h0]
    simp

/-- **C1.** (amended) `topological_sort` uses a plain FIFO queue seeded by the
iteration order of the enabled set and applies no lexicographic tiebreak:
whenever the restricted requires-graph has no edges at all — so every node has
indegree zero throughout — the output is exactly the set's iteration order,
whether or not that order is sorted.  Hence runs agree only when the
(unspecified) set iteration orders agree. -/
theorem c1_fifo_no_lex_tiebreak (services : Services) (enabled : List String)
    (hnd : enabled.Nodup) (hall : ∀ s ∈ enabled, (alookup s services).isSome)
    (hnoedge : ∀ s ∈ enabled, ∀ d ∈ requiresOf services s, d ∉ enabled) :
    topological_sort services enabled = some enabled := by
  obtain ⟨hg, hdeg⟩ := buildGraph_no_edges services enabled hnoedge
  have hgraph : (buildGraph services enabled).1 = fun _ => [] := funext hg
  have hcond : enabled.all (fun s => (alookup s services).isSome) = true := by
    rw [List.all_eq_true]
    intro s hs
    simpa using hall s hs
  have hfilter : enabled.filter (fun s => (buildGraph services enabled).2 s == 0)
      = enabled := by
    rw [List.filter_eq_self]
    intro s hs
    simp only [beq_iff_eq]
    exact hdeg s hs
  have hts : topological_sort services enabled
      = if (kahnLoop (buildGraph services enabled).1 (enabled.length + 1)
            (enabled.filter (fun s => (buildGraph services enabled).2 s == 0))
            (buildGraph services enabled).2 []).length = enabled.length
        then some (kahnLoop (buildGraph services enabled).1 (enabled.length + 1)
            (enabled.filter (fun s => (buildGraph services enabled).2 s == 0))
            (buildGraph services enabled).2 [])
        else none := by
    unfold topological_sort
    rw [if_pos hcond]
  rw [hts, hfilter, hgraph,
    kahnLoop_nil_graph (enabled.length + 1) enabled (buildGraph services enabled).2 []
      (by omega)]
  simp

/-- C1 counterexample: two enabled services with no dependencies.  The graph
is acyclic and both nodes always have indegree zero, yet the run seeded with
iteration order `b, a` pops `b` first even though `a` is the lexicographically
least indegree-zero node; the two iteration orders of the same set yield
different lists. -/
theorem c1_counterexample :
    topological_sort twoFreeSvcs ["b", "a"] = some ["b", "a"] ∧
    topological_sort twoFreeSvcs ["a", "b"] = some ["a", "b"] ∧
    (["b", "a"] : List String) ≠ ["a", "b"] ∧
    List.Perm (["b", "a"] : List String) ["a", "b"] ∧
    AcyclicIn twoFreeSvcs ["b", "a"] ∧
    "a".toList < "b".toList ∧
    (buildGraph twoFreeSvcs ["b", "a"]).2 "a" = 0 :=
  ⟨by decide, by decide, by decide, by decide,
    acyclic_of_rank twoFreeSvcs ["b", "a"] (fun _ => 0) (by decide),
    by decide, by decide⟩

/-- C1 witness: on the edgeless two-service topology with iteration order
`b, a`, the amended statement yields exactly that order. -/
theorem c1_witness : topological_sort twoFreeSvcs ["b", "a"] = some ["b", "a"] :=
  c1_fifo_no_lex_tiebreak twoFreeSvcs ["b", "a"] (by decide) (by decide) (by decide)

end Schema
